import Mathlib

/-!
Verification development for the componentize-qjs repository.

This file gives a shallow embedding of the QuickJS-based marshaling
runtime (crates/runtime/src/lib.rs: the `Call` trait implementation on
`QjsCallContext`, the `init_js` entry point and the enum/flags portion of
`create_interface_object`) and of the WASI stub composer
(src/stubwasi.rs), together with theorems settling the specification
claims about them.

Modelling conventions:
- The value stack of a call context is a `List JSVal` whose head is the
  top of the stack (Rust `Vec::push`/`Vec::pop` work on the end).
- JS numbers are IEEE binary64 values; they are modelled by the exact
  rational value they denote.  The only places the runtime converts with
  possible rounding are `u64/s64 as f64` (modelled by `sig53`, IEEE
  round-to-nearest ties-to-even on integers) and `f64 as f32` on pop of
  an f32 (modelled by `f32Round`).
- Operations that panic in the runtime (stack underflow, rquickjs
  `expect` failures on a type mismatch) are modelled as `Option.none`.
-/

namespace CQjs

/-- JSVal models a QuickJS value as seen through the rquickjs value API:
booleans, numbers, strings, null, undefined, arrays and plain objects
(ordered key/value lists; a later `set` of an existing key overwrites in
place, of a fresh key appends). -/
inductive JSVal where
  | bool (b : Bool)
  | num (q : ℚ)
  | str (s : String)
  | jsNull
  | undef
  | arr (elems : List JSVal)
  | obj (fields : List (String × JSVal))

/-- objGet models JS property lookup on a plain object. -/
def objGet (fields : List (String × JSVal)) (k : String) : Option JSVal :=
  match fields with
  | [] => none
  | (k2, v) :: rest => if k2 = k then some v else objGet rest k

/-- objSet models JS property assignment: overwrite the key in place if
present, otherwise append it. -/
def objSet (fields : List (String × JSVal)) (k : String) (v : JSVal) :
    List (String × JSVal) :=
  match fields with
  | [] => [(k, v)]
  | (k2, v2) :: rest =>
    if k2 = k then (k2, v) :: rest else (k2, v2) :: objSet rest k v

/-- LayoutM models core::alloc::Layout as a (size, align) pair. -/
structure LayoutM where
  size : Nat
  align : Nat
deriving DecidableEq

/-- QjsCallContext models the per-call state of the runtime: the value
stack (head = top), the temporary string buffer, and the deferred
deallocation list in insertion order (pointers are modelled as naturals). -/
structure QjsCallContext where
  stack : List JSVal
  temp_strings : List String
  deferred_deallocs : List (Nat × LayoutM)

/-- emptyCx models `QjsCallContext::default()`. -/
def emptyCx : QjsCallContext where
  stack := []
  temp_strings := []
  deferred_deallocs := []

/-- WitTy is the WIT type universe handled by the marshaler (spec section 3). -/
inductive WitTy where
  | bool | u8 | s8 | u16 | s16 | u32 | s32 | u64 | s64 | f32 | f64 | char | string
  | list (elem : WitTy)
  | tuple (elems : List WitTy)
  | record (fields : List (String × WitTy))
  | option (elem : WitTy)
  | result (ok : Option WitTy) (err : Option WitTy)
  | variant (cases : List (String × Option WitTy))
  | enum (names : List String)
  | flags (names : List String)
  | own | borrow | future | stream

/-- HostVal is the host-side value universe, one shape per WIT type shape. -/
inductive HostVal where
  | bool (b : Bool)
  | uint (n : Nat)
  | sint (i : Int)
  | float (q : ℚ)
  | char (c : Char)
  | str (s : String)
  | list (elems : List HostVal)
  | tuple (elems : List HostVal)
  | record (fields : List HostVal)
  | noneV
  | someV (v : HostVal)
  | okV (payload : Option HostVal)
  | errV (payload : Option HostVal)
  | variantV (tag : Nat) (payload : Option HostVal)
  | enumV (n : Nat)
  | flagsV (n : Nat)
  | handle (h : Nat)

/-! Numeric conversion helpers.  All are fuel-free or take explicit fuel so
that the kernel can evaluate them on concrete inputs. -/

/-- bitLen computes the binary length of a natural number (0 for 0), with
explicit fuel; fuel at least the bit length is enough. -/
def bitLen : Nat → Nat → Nat
  | 0, _ => 0
  | fuel + 1, n => if n = 0 then 0 else bitLen fuel (n / 2) + 1

/-- sig53 rounds a natural number to at most 53 significant bits using IEEE
round-to-nearest ties-to-even; this is the exact value of the Rust cast
`n as f64` for an unsigned 64-bit integer n. -/
def sig53 (n : Nat) : Nat :=
  if n < 2 ^ 53 then n
  else
    let b := bitLen 128 n
    let k := b - 53
    let t := n / 2 ^ k
    let r := n % 2 ^ k
    let half := 2 ^ (k - 1)
    if r < half then t * 2 ^ k
    else if half < r then (t + 1) * 2 ^ k
    else if t % 2 = 0 then t * 2 ^ k else (t + 1) * 2 ^ k

/-- f64ofNat is the value of the Rust cast `n as f64` on a u64. -/
def f64ofNat (n : Nat) : ℚ := (sig53 n : ℚ)

/-- f64ofInt is the value of the Rust cast `i as f64` on an s64 (the IEEE
rounding is symmetric around zero). -/
def f64ofInt (i : Int) : ℚ :=
  if 0 ≤ i then (sig53 i.toNat : ℚ) else -(sig53 (-i).toNat : ℚ)

/-- i32ofU32 is the value of the Rust cast `n as i32` on a u32. -/
def i32ofU32 (n : Nat) : Int :=
  if n < 2 ^ 31 then (n : Int) else (n : Int) - 2 ^ 32

/-- qToI32 models rquickjs `Value::get::<i32>`: the number must denote an
integer in i32 range. -/
def qToI32 (q : ℚ) : Option Int :=
  if q.den = 1 ∧ -(2 ^ 31) ≤ q.num ∧ q.num < 2 ^ 31 then some q.num else none

/-- qToU32 models rquickjs `Value::get::<u32>`: the number must denote an
integer in u32 range. -/
def qToU32 (q : ℚ) : Option Nat :=
  if q.den = 1 ∧ 0 ≤ q.num ∧ q.num < 2 ^ 32 then some q.num.toNat else none

/-- qToU64 models rquickjs `Value::get::<u64>`: the number must denote an
integer in u64 range. -/
def qToU64 (q : ℚ) : Option Nat :=
  if q.den = 1 ∧ 0 ≤ q.num ∧ q.num < 2 ^ 64 then some q.num.toNat else none

/-- qToI64 models rquickjs `Value::get::<i64>`: the number must denote an
integer in s64 range. -/
def qToI64 (q : ℚ) : Option Int :=
  if q.den = 1 ∧ -(2 ^ 63) ≤ q.num ∧ q.num < 2 ^ 63 then some q.num else none

/-- wrapU8 is the Rust cast `i as u8` on an i32. -/
def wrapU8 (i : Int) : Nat := (i % 256).toNat

/-- wrapI8 is the Rust cast `i as i8` on an i32. -/
def wrapI8 (i : Int) : Int := (i + 128) % 256 - 128

/-- wrapU16 is the Rust cast `i as u16` on an i32. -/
def wrapU16 (i : Int) : Nat := (i % 65536).toNat

/-- wrapI16 is the Rust cast `i as i16` on an i32. -/
def wrapI16 (i : Int) : Int := (i + 32768) % 65536 - 32768

/-- twoAdicVal computes the 2-adic valuation of a positive natural (0 for 0),
with explicit fuel. -/
def twoAdicVal : Nat → Nat → Nat
  | 0, _ => 0
  | fuel + 1, n => if n % 2 = 0 ∧ n ≠ 0 then twoAdicVal fuel (n / 2) + 1 else 0

/-- isF32exact decides whether a rational is the exact value of a finite
IEEE binary32 number: scaled by 2^149 it must be an integer whose odd part
fits in 24 bits (allowing up to 253 binade positions above the smallest
subnormal). -/
def isF32exact (q : ℚ) : Bool :=
  let p : ℚ := q * (2 : ℚ) ^ (149 : Nat)
  let n : Nat := p.num.natAbs
  let j : Nat := min (twoAdicVal 300 n) 253
  p.den == 1 && decide (n / 2 ^ j < 2 ^ 24)

/-- f32Trunc rounds a rational toward zero to an f32-representable value
(truncating the significand to 24 bits, flushing below the smallest
subnormal, saturating at the largest finite value). -/
def f32Trunc (q : ℚ) : ℚ :=
  let a : ℚ := |q| * (2 : ℚ) ^ (149 : Nat)
  let n : Nat := a.floor.toNat
  let b := bitLen 300 n
  let m : Nat := if b ≤ 24 then n else n / 2 ^ (b - 24) * 2 ^ (b - 24)
  let m2 : Nat := min m ((2 ^ 24 - 1) * 2 ^ 253)
  (if q < 0 then -1 else 1) * ((m2 : ℚ) / (2 : ℚ) ^ (149 : Nat))

/-- f32Round models the Rust cast `x as f32` (followed by the exact widening
back to f64): it fixes every exactly representable f32 value, which is all
the claims exercise; on other inputs it truncates toward zero where IEEE
rounds to nearest, a divergence no claim depends on. -/
def f32Round (q : ℚ) : ℚ := if isF32exact q then q else f32Trunc q

/-! Marshaling primitives, one per method of the `Call` implementation on
`QjsCallContext` in crates/runtime/src/lib.rs.  Pops that panic (stack
underflow or conversion failure) are `none`. -/

/-- popRaw models `self.stack.pop()` plus `Persistent::restore`. -/
def popRaw (cx : QjsCallContext) : Option (JSVal × QjsCallContext) :=
  match cx.stack with
  | [] => none
  | v :: rest => some (v, { cx with stack := rest })

/-- pushRaw models `self.stack.push(Persistent::save(ctx, v))`. -/
def pushRaw (cx : QjsCallContext) (v : JSVal) : QjsCallContext :=
  { cx with stack := v :: cx.stack }

/-- isNullish is true on the JS values `null` and `undefined`. -/
def isNullish : JSVal → Bool
  | .jsNull => true
  | .undef => true
  | _ => false

/-- pop_bool models `Call::pop_bool`. -/
def pop_bool (cx : QjsCallContext) : Option (Bool × QjsCallContext) := do
  let (v, cx1) ← popRaw cx
  match v with
  | .bool b => some (b, cx1)
  | _ => none

/-- pop_u8 models `Call::pop_u8` (get an i32, cast `as u8`). -/
def pop_u8 (cx : QjsCallContext) : Option (Nat × QjsCallContext) := do
  let (v, cx1) ← popRaw cx
  match v with
  | .num q => do
    let i ← qToI32 q
    some (wrapU8 i, cx1)
  | _ => none

/-- pop_s8 models `Call::pop_s8` (get an i32, cast `as i8`). -/
def pop_s8 (cx : QjsCallContext) : Option (Int × QjsCallContext) := do
  let (v, cx1) ← popRaw cx
  match v with
  | .num q => do
    let i ← qToI32 q
    some (wrapI8 i, cx1)
  | _ => none

/-- pop_u16 models `Call::pop_u16` (get an i32, cast `as u16`). -/
def pop_u16 (cx : QjsCallContext) : Option (Nat × QjsCallContext) := do
  let (v, cx1) ← popRaw cx
  match v with
  | .num q => do
    let i ← qToI32 q
    some (wrapU16 i, cx1)
  | _ => none

/-- pop_s16 models `Call::pop_s16` (get an i32, cast `as i16`). -/
def pop_s16 (cx : QjsCallContext) : Option (Int × QjsCallContext) := do
  let (v, cx1) ← popRaw cx
  match v with
  | .num q => do
    let i ← qToI32 q
    some (wrapI16 i, cx1)
  | _ => none

/-- pop_u32 models `Call::pop_u32`. -/
def pop_u32 (cx : QjsCallContext) : Option (Nat × QjsCallContext) := do
  let (v, cx1) ← popRaw cx
  match v with
  | .num q => (qToU32 q).map (fun n => (n, cx1))
  | _ => none

/-- pop_s32 models `Call::pop_s32`. -/
def pop_s32 (cx : QjsCallContext) : Option (Int × QjsCallContext) := do
  let (v, cx1) ← popRaw cx
  match v with
  | .num q => (qToI32 q).map (fun i => (i, cx1))
  | _ => none

/-- pop_u64 models `Call::pop_u64`. -/
def pop_u64 (cx : QjsCallContext) : Option (Nat × QjsCallContext) := do
  let (v, cx1) ← popRaw cx
  match v with
  | .num q => (qToU64 q).map (fun n => (n, cx1))
  | _ => none

/-- pop_s64 models `Call::pop_s64`. -/
def pop_s64 (cx : QjsCallContext) : Option (Int × QjsCallContext) := do
  let (v, cx1) ← popRaw cx
  match v with
  | .num q => (qToI64 q).map (fun i => (i, cx1))
  | _ => none

/-- pop_f32 models `Call::pop_f32` (get an f64, cast `as f32`). -/
def pop_f32 (cx : QjsCallContext) : Option (ℚ × QjsCallContext) := do
  let (v, cx1) ← popRaw cx
  match v with
  | .num q => some (f32Round q, cx1)
  | _ => none

/-- pop_f64 models `Call::pop_f64`. -/
def pop_f64 (cx : QjsCallContext) : Option (ℚ × QjsCallContext) := do
  let (v, cx1) ← popRaw cx
  match v with
  | .num q => some (q, cx1)
  | _ => none

/-- pop_char models `Call::pop_char` (first char of a JS string; panics on
an empty or non-string value). -/
def pop_char (cx : QjsCallContext) : Option (Char × QjsCallContext) := do
  let (v, cx1) ← popRaw cx
  match v with
  | .str s =>
    match s.data with
    | c :: _ => some (c, cx1)
    | [] => none
  | _ => none

/-- pop_string models `Call::pop_string`: the popped string is appended to
the per-call temporary string buffer and handed out. -/
def pop_string (cx : QjsCallContext) : Option (String × QjsCallContext) := do
  let (v, cx1) ← popRaw cx
  match v with
  | .str s =>
    some (s, { cx1 with temp_strings := cx1.temp_strings ++ [s] })
  | _ => none

/-- pop_list models `Call::pop_list`: the array elements are pushed in
reverse index order (so element 0 ends on top of the stack) and the length
is returned. -/
def pop_list (cx : QjsCallContext) : Option (Nat × QjsCallContext) := do
  let (v, cx1) ← popRaw cx
  match v with
  | .arr es => some (es.length, { cx1 with stack := es ++ cx1.stack })
  | _ => none

/-- pop_option models `Call::pop_option`: null/undefined is none (0); any
other value is put back on the stack and 1 is returned. -/
def pop_option (cx : QjsCallContext) : Option (Nat × QjsCallContext) := do
  let (v, cx1) ← popRaw cx
  if isNullish v then some (0, cx1)
  else some (1, { cx1 with stack := v :: cx1.stack })

/-- pop_result models `Call::pop_result`: the object must carry a string
`tag` property; the `val` property (or undefined when absent) is pushed,
and the discriminant is 0 for tag `ok`, 1 otherwise. -/
def pop_result (cx : QjsCallContext) : Option (Nat × QjsCallContext) := do
  let (v, cx1) ← popRaw cx
  match v with
  | .obj fs =>
    match objGet fs ("tag") with
    | some (.str tg) =>
      some ((if tg = ("ok") then 0 else 1),
        { cx1 with stack := ((objGet fs ("val")).getD .undef) :: cx1.stack })
    | _ => none
  | _ => none

/-- pop_variant models `Call::pop_variant`: the object must carry a u32
`tag` property; the `val` property (or undefined when absent) is pushed,
and the tag is returned. -/
def pop_variant (cx : QjsCallContext) : Option (Nat × QjsCallContext) := do
  let (v, cx1) ← popRaw cx
  match v with
  | .obj fs =>
    match objGet fs ("tag") with
    | some (.num q) =>
      (qToU32 q).map (fun tg =>
        (tg, { cx1 with stack := ((objGet fs ("val")).getD .undef) :: cx1.stack }))
    | _ => none
  | _ => none

/-- pop_enum models `Call::pop_enum`. -/
def pop_enum (cx : QjsCallContext) : Option (Nat × QjsCallContext) := do
  let (v, cx1) ← popRaw cx
  match v with
  | .num q => (qToU32 q).map (fun n => (n, cx1))
  | _ => none

/-- pop_flags models `Call::pop_flags`. -/
def pop_flags (cx : QjsCallContext) : Option (Nat × QjsCallContext) := do
  let (v, cx1) ← popRaw cx
  match v with
  | .num q => (qToU32 q).map (fun n => (n, cx1))
  | _ => none

/-- pop_borrow models `Call::pop_borrow`. -/
def pop_borrow (cx : QjsCallContext) : Option (Nat × QjsCallContext) := do
  let (v, cx1) ← popRaw cx
  match v with
  | .num q => (qToU32 q).map (fun n => (n, cx1))
  | _ => none

/-- pop_own models `Call::pop_own`. -/
def pop_own (cx : QjsCallContext) : Option (Nat × QjsCallContext) := do
  let (v, cx1) ← popRaw cx
  match v with
  | .num q => (qToU32 q).map (fun n => (n, cx1))
  | _ => none

/-- pop_future models `Call::pop_future`. -/
def pop_future (cx : QjsCallContext) : Option (Nat × QjsCallContext) := do
  let (v, cx1) ← popRaw cx
  match v with
  | .num q => (qToU32 q).map (fun n => (n, cx1))
  | _ => none

/-- pop_stream models `Call::pop_stream`. -/
def pop_stream (cx : QjsCallContext) : Option (Nat × QjsCallContext) := do
  let (v, cx1) ← popRaw cx
  match v with
  | .num q => (qToU32 q).map (fun n => (n, cx1))
  | _ => none

/-- idxList is the list of JS array reads `arr.get(i)` for i below the
arity, out-of-range reads yielding undefined. -/
def idxList (es : List JSVal) (n : Nat) : List JSVal :=
  (List.range n).map (fun i => es.getD i .undef)

/-- pop_tuple models `Call::pop_tuple`: the array elements at indices below
the tuple arity are pushed in reverse index order (element 0 on top). -/
def pop_tuple (arity : Nat) (cx : QjsCallContext) : Option QjsCallContext := do
  let (v, cx1) ← popRaw cx
  match v with
  | .arr es => some { cx1 with stack := idxList es arity ++ cx1.stack }
  | _ => none

/-! Camel-case conversions (the heck crate, restricted to the kebab-case
identifiers WIT produces: words are split on dashes; lower camel keeps the
first word, upper camel capitalizes every word). -/

/-- capitalizeWord upcases the first character of a word. -/
def capitalizeWord : List Char → List Char
  | [] => []
  | c :: cs => c.toUpper :: cs

/-- splitDashAux splits a character list on dashes (accumulator-based). -/
def splitDashAux : List Char → List Char → List (List Char)
  | [], acc => [acc.reverse]
  | c :: cs, acc =>
    if c = '-' then acc.reverse :: splitDashAux cs []
    else splitDashAux cs (c :: acc)

/-- lowerCamel models heck `to_lower_camel_case` on kebab-case WIT names. -/
def lowerCamel (s : String) : String :=
  match splitDashAux s.data [] with
  | [] => String.mk []
  | w :: ws => String.mk (w ++ (ws.map capitalizeWord).flatten)

/-- upperCamel models heck `to_upper_camel_case` on kebab-case WIT names. -/
def upperCamel (s : String) : String :=
  String.mk (((splitDashAux s.data []).map capitalizeWord).flatten)

/-- pop_record models `Call::pop_record`: the field values, looked up by
lower-camel-case key (absent keys read as undefined), are pushed in reverse
field order (field 0 on top). -/
def pop_record (names : List String) (cx : QjsCallContext) : Option QjsCallContext := do
  let (v, cx1) ← popRaw cx
  match v with
  | .obj fs =>
    some { cx1 with
      stack := names.map (fun nm => (objGet fs (lowerCamel nm)).getD .undef) ++ cx1.stack }
  | _ => none

/-! Push primitives. -/

/-- push_bool models `Call::push_bool`. -/
def push_bool (b : Bool) (cx : QjsCallContext) : QjsCallContext :=
  pushRaw cx (.bool b)

/-- push_u8 models `Call::push_u8` (`new_int(val as i32)`, exact). -/
def push_u8 (n : Nat) (cx : QjsCallContext) : QjsCallContext :=
  pushRaw cx (.num (n : ℚ))

/-- push_s8 models `Call::push_s8`. -/
def push_s8 (i : Int) (cx : QjsCallContext) : QjsCallContext :=
  pushRaw cx (.num (i : ℚ))

/-- push_u16 models `Call::push_u16`. -/
def push_u16 (n : Nat) (cx : QjsCallContext) : QjsCallContext :=
  pushRaw cx (.num (n : ℚ))

/-- push_s16 models `Call::push_s16`. -/
def push_s16 (i : Int) (cx : QjsCallContext) : QjsCallContext :=
  pushRaw cx (.num (i : ℚ))

/-- push_u32 models `Call::push_u32` (`new_number(val as f64)`, exact). -/
def push_u32 (n : Nat) (cx : QjsCallContext) : QjsCallContext :=
  pushRaw cx (.num (n : ℚ))

/-- push_s32 models `Call::push_s32`. -/
def push_s32 (i : Int) (cx : QjsCallContext) : QjsCallContext :=
  pushRaw cx (.num (i : ℚ))

/-- push_u64 models `Call::push_u64` (`new_number(val as f64)`: rounds to 53
significant bits). -/
def push_u64 (n : Nat) (cx : QjsCallContext) : QjsCallContext :=
  pushRaw cx (.num (f64ofNat n))

/-- push_s64 models `Call::push_s64`. -/
def push_s64 (i : Int) (cx : QjsCallContext) : QjsCallContext :=
  pushRaw cx (.num (f64ofInt i))

/-- push_f32 models `Call::push_f32` (`val as f64` is an exact widening). -/
def push_f32 (q : ℚ) (cx : QjsCallContext) : QjsCallContext :=
  pushRaw cx (.num q)

/-- push_f64 models `Call::push_f64`. -/
def push_f64 (q : ℚ) (cx : QjsCallContext) : QjsCallContext :=
  pushRaw cx (.num q)

/-- push_char models `Call::push_char` (a one-character JS string). -/
def push_char (c : Char) (cx : QjsCallContext) : QjsCallContext :=
  pushRaw cx (.str (String.mk [c]))

/-- push_string models `Call::push_string`. -/
def push_string (s : String) (cx : QjsCallContext) : QjsCallContext :=
  pushRaw cx (.str s)

/-- push_list models `Call::push_list`: a fresh empty array (capacity is
advisory and ignored). -/
def push_list (cx : QjsCallContext) : QjsCallContext :=
  pushRaw cx (.arr [])

/-- list_append models `Call::list_append`: pop the element, append it to
the array now on top of the stack. -/
def list_append (cx : QjsCallContext) : Option QjsCallContext :=
  match cx.stack with
  | elem :: .arr es :: rest =>
    some { cx with stack := .arr (es ++ [elem]) :: rest }
  | _ => none

/-- push_option models `Call::push_option`: a none pushes null, a some
leaves the already-pushed payload in place. -/
def push_option (isSome : Bool) (cx : QjsCallContext) : QjsCallContext :=
  if isSome then cx else pushRaw cx .jsNull

/-- push_result models `Call::push_result`: a payload is popped only when
the active arm (err when is_err, ok otherwise) declares a payload type; the
object then carries the string tag and, only with a payload, a val. -/
def push_result (ok err : Option WitTy) (is_err : Bool) (cx : QjsCallContext) :
    Option QjsCallContext :=
  let has_payload := if is_err then err.isSome else ok.isSome
  let tagv : JSVal := .str (if is_err then ("err") else ("ok"))
  if has_payload then
    match cx.stack with
    | p :: rest => some { cx with stack := .obj [(("tag"), tagv), (("val"), p)] :: rest }
    | [] => none
  else
    some { cx with stack := .obj [(("tag"), tagv)] :: cx.stack }

/-- push_variant models `Call::push_variant`: a payload is popped only when
the case selected by the tag declares a payload type (an out-of-range tag
counts as no payload). -/
def push_variant (cases : List (String × Option WitTy)) (tag : Nat)
    (cx : QjsCallContext) : Option QjsCallContext :=
  let has_payload := (cases[tag]?.map (fun c => c.2.isSome)).getD false
  if has_payload then
    match cx.stack with
    | p :: rest =>
      some { cx with stack := .obj [(("tag"), .num (tag : ℚ)), (("val"), p)] :: rest }
    | [] => none
  else
    some { cx with stack := .obj [(("tag"), .num (tag : ℚ))] :: cx.stack }

/-- push_enum models `Call::push_enum` (`new_int(val as i32)`). -/
def push_enum (n : Nat) (cx : QjsCallContext) : QjsCallContext :=
  pushRaw cx (.num (i32ofU32 n : ℚ))

/-- push_flags models `Call::push_flags` (`new_number(val as f64)`, exact). -/
def push_flags (n : Nat) (cx : QjsCallContext) : QjsCallContext :=
  pushRaw cx (.num (n : ℚ))

/-- push_borrow models `Call::push_borrow` (`new_number`, exact). -/
def push_borrow (h : Nat) (cx : QjsCallContext) : QjsCallContext :=
  pushRaw cx (.num (h : ℚ))

/-- push_own models `Call::push_own` (`new_number`, exact). -/
def push_own (h : Nat) (cx : QjsCallContext) : QjsCallContext :=
  pushRaw cx (.num (h : ℚ))

/-- takeN pops the first n values (top first); none on underflow. -/
def takeN : Nat → List JSVal → Option (List JSVal × List JSVal)
  | 0, l => some ([], l)
  | _ + 1, [] => none
  | n + 1, x :: l => (takeN n l).map (fun p => (x :: p.1, p.2))

/-- push_tuple models `Call::push_tuple`: pop arity values and rebuild the
array in push order (the first-pushed element at index 0). -/
def push_tuple (arity : Nat) (cx : QjsCallContext) : Option QjsCallContext := do
  let (popped, rest) ← takeN arity cx.stack
  some { cx with stack := .arr popped.reverse :: rest }

/-- buildObj folds sequential `set(lower_camel_case(name), value)` calls on
a fresh object. -/
def buildObj (pairs : List (String × JSVal)) : List (String × JSVal) :=
  pairs.foldl (fun o p => objSet o (lowerCamel p.1) p.2) []

/-- push_record models `Call::push_record`: pop one value per field and
build an object keyed by the lower-camel-case field names, the
first-pushed value under the first field name. -/
def push_record (names : List String) (cx : QjsCallContext) : Option QjsCallContext := do
  let (popped, rest) ← takeN names.length cx.stack
  some { cx with stack := .obj (buildObj (names.zip popped.reverse)) :: rest }

/-- push_future models `Call::push_future` (`new_int(handle as i32)`). -/
def push_future (h : Nat) (cx : QjsCallContext) : QjsCallContext :=
  pushRaw cx (.num (i32ofU32 h : ℚ))

/-- push_stream models `Call::push_stream` (`new_int(handle as i32)`). -/
def push_stream (h : Nat) (cx : QjsCallContext) : QjsCallContext :=
  pushRaw cx (.num (i32ofU32 h : ℚ))

/-- defer_deallocate models `Call::defer_deallocate`: record the
(pointer, layout) pair at the end of the deferred list. -/
def defer_deallocate (cx : QjsCallContext) (ptr : Nat) (layout : LayoutM) :
    QjsCallContext :=
  { cx with deferred_deallocs := cx.deferred_deallocs ++ [(ptr, layout)] }

/-- dropDeallocTrace is the sequence of `dealloc(ptr, layout)` calls the
`Drop` implementation of `QjsCallContext` performs: it drains the deferred
list front to back, so the trace is exactly the insertion order. -/
def dropDeallocTrace (cx : QjsCallContext) : List (Nat × LayoutM) :=
  cx.deferred_deallocs

/-! The generic lower/lift driver.  The adapter that composes the `Call`
primitives is generated outside this repository (the wit-dylib adapter);
the composition order below is modelled from the spec (sections 4.D, 4.E):
payloads and elements are pushed before the combining primitive runs and
popped in forward order after the splitting primitive runs, and the
payload slot that `pop_result`/`pop_variant` always pushes is discarded
when the active arm declares no payload. -/

mutual

/-- pushVal lowers one host value of the given WIT type onto the stack.
Modelled from the spec: the per-type composition of the source `Call` push
primitives performed by the external generated adapter. -/
def pushVal : WitTy → HostVal → QjsCallContext → Option QjsCallContext
  | .bool, .bool b, cx => some (push_bool b cx)
  | .u8, .uint n, cx => some (push_u8 n cx)
  | .s8, .sint i, cx => some (push_s8 i cx)
  | .u16, .uint n, cx => some (push_u16 n cx)
  | .s16, .sint i, cx => some (push_s16 i cx)
  | .u32, .uint n, cx => some (push_u32 n cx)
  | .s32, .sint i, cx => some (push_s32 i cx)
  | .u64, .uint n, cx => some (push_u64 n cx)
  | .s64, .sint i, cx => some (push_s64 i cx)
  | .f32, .float q, cx => some (push_f32 q cx)
  | .f64, .float q, cx => some (push_f64 q cx)
  | .char, .char c, cx => some (push_char c cx)
  | .string, .str s, cx => some (push_string s cx)
  | .list t, .list es, cx => pushElems t es (push_list cx)
  | .tuple ts, .tuple vs, cx => do
    let cx1 ← pushSeq ts vs cx
    push_tuple ts.length cx1
  | .record fs, .record vs, cx => do
    let cx1 ← pushFields fs vs cx
    push_record (fs.map (fun p => p.1)) cx1
  | .option _, .noneV, cx => some (push_option false cx)
  | .option t, .someV v, cx => do
    let cx1 ← pushVal t v cx
    some (push_option true cx1)
  | .result ok err, .okV none, cx =>
    match ok with
    | none => push_result ok err false cx
    | some _ => none
  | .result ok err, .okV (some v), cx =>
    match ok with
    | some t => do
      let cx1 ← pushVal t v cx
      push_result ok err false cx1
    | none => none
  | .result ok err, .errV none, cx =>
    match err with
    | none => push_result ok err true cx
    | some _ => none
  | .result ok err, .errV (some v), cx =>
    match err with
    | some t => do
      let cx1 ← pushVal t v cx
      push_result ok err true cx1
    | none => none
  | .variant cs, .variantV tag none, cx => push_variant cs tag cx
  | .variant cs, .variantV tag (some v), cx =>
    match cs[tag]? with
    | some (_, some t) => do
      let cx1 ← pushVal t v cx
      push_variant cs tag cx1
    | _ => none
  | .enum _, .enumV n, cx => some (push_enum n cx)
  | .flags _, .flagsV n, cx => some (push_flags n cx)
  | .own, .handle h, cx => some (push_own h cx)
  | .borrow, .handle h, cx => some (push_borrow h cx)
  | .future, .handle h, cx => some (push_future h cx)
  | .stream, .handle h, cx => some (push_stream h cx)
  | _, _, _ => none

/-- pushElems pushes each list element then runs `list_append` on it
(spec: push a value of the element type, then `list-append`). -/
def pushElems (t : WitTy) : List HostVal → QjsCallContext → Option QjsCallContext
  | [], cx => some cx
  | e :: es, cx => do
    let cx1 ← pushVal t e cx
    let cx2 ← list_append cx1
    pushElems t es cx2

/-- pushSeq pushes a sequence of values, first element first. -/
def pushSeq : List WitTy → List HostVal → QjsCallContext → Option QjsCallContext
  | [], [], cx => some cx
  | t :: ts, v :: vs, cx => do
    let cx1 ← pushVal t v cx
    pushSeq ts vs cx1
  | _, _, _ => none

/-- pushFields pushes record field values in field order. -/
def pushFields : List (String × WitTy) → List HostVal → QjsCallContext →
    Option QjsCallContext
  | [], [], cx => some cx
  | f :: fs, v :: vs, cx => do
    let cx1 ← pushVal f.2 v cx
    pushFields fs vs cx1
  | _, _, _ => none

end

/-- popNwith pops n values with the given element popper, first-popped
first in the returned list. -/
def popNwith (f : QjsCallContext → Option (HostVal × QjsCallContext)) :
    Nat → QjsCallContext → Option (List HostVal × QjsCallContext)
  | 0, cx => some ([], cx)
  | n + 1, cx => do
    let (v, cx1) ← f cx
    let (vs, cx2) ← popNwith f n cx1
    some (v :: vs, cx2)

mutual

/-- popVal lifts one host value of the given WIT type off the stack.
Modelled from the spec: the per-type composition of the source `Call` pop
primitives performed by the external generated adapter. -/
def popVal : WitTy → QjsCallContext → Option (HostVal × QjsCallContext)
  | .bool, cx => (pop_bool cx).map (fun p => (.bool p.1, p.2))
  | .u8, cx => (pop_u8 cx).map (fun p => (.uint p.1, p.2))
  | .s8, cx => (pop_s8 cx).map (fun p => (.sint p.1, p.2))
  | .u16, cx => (pop_u16 cx).map (fun p => (.uint p.1, p.2))
  | .s16, cx => (pop_s16 cx).map (fun p => (.sint p.1, p.2))
  | .u32, cx => (pop_u32 cx).map (fun p => (.uint p.1, p.2))
  | .s32, cx => (pop_s32 cx).map (fun p => (.sint p.1, p.2))
  | .u64, cx => (pop_u64 cx).map (fun p => (.uint p.1, p.2))
  | .s64, cx => (pop_s64 cx).map (fun p => (.sint p.1, p.2))
  | .f32, cx => (pop_f32 cx).map (fun p => (.float p.1, p.2))
  | .f64, cx => (pop_f64 cx).map (fun p => (.float p.1, p.2))
  | .char, cx => (pop_char cx).map (fun p => (.char p.1, p.2))
  | .string, cx => (pop_string cx).map (fun p => (.str p.1, p.2))
  | .list t, cx => do
    let (len, cx1) ← pop_list cx
    let (vs, cx2) ← popNwith (fun c => popVal t c) len cx1
    some (.list vs, cx2)
  | .tuple ts, cx => do
    let cx1 ← pop_tuple ts.length cx
    let (vs, cx2) ← popSeq ts cx1
    some (.tuple vs, cx2)
  | .record fs, cx => do
    let cx1 ← pop_record (fs.map (fun p => p.1)) cx
    let (vs, cx2) ← popFieldVals fs cx1
    some (.record vs, cx2)
  | .option t, cx => do
    let (d, cx1) ← pop_option cx
    if d = 0 then some (.noneV, cx1)
    else do
      let (v, cx2) ← popVal t cx1
      some (.someV v, cx2)
  | .result ok err, cx => do
    let (d, cx1) ← pop_result cx
    if d = 0 then
      match ok with
      | some t => do
        let (v, cx2) ← popVal t cx1
        some (.okV (some v), cx2)
      | none => do
        let (_, cx2) ← popRaw cx1
        some (.okV none, cx2)
    else
      match err with
      | some t => do
        let (v, cx2) ← popVal t cx1
        some (.errV (some v), cx2)
      | none => do
        let (_, cx2) ← popRaw cx1
        some (.errV none, cx2)
  | .variant cs, cx => do
    let (tag, cx1) ← pop_variant cx
    match h : cs[tag]? with
    | some (_, some t) => do
      have hsz : sizeOf t < 1 + sizeOf cs := by
        have hm := List.sizeOf_lt_of_mem (List.getElem?_mem h)
        simp at hm
        omega
      let (v, cx2) ← popVal t cx1
      some (.variantV tag (some v), cx2)
    | some (_, none) => do
      let (_, cx2) ← popRaw cx1
      some (.variantV tag none, cx2)
    | none => none
  | .enum _, cx => (pop_enum cx).map (fun p => (.enumV p.1, p.2))
  | .flags _, cx => (pop_flags cx).map (fun p => (.flagsV p.1, p.2))
  | .own, cx => (pop_own cx).map (fun p => (.handle p.1, p.2))
  | .borrow, cx => (pop_borrow cx).map (fun p => (.handle p.1, p.2))
  | .future, cx => (pop_future cx).map (fun p => (.handle p.1, p.2))
  | .stream, cx => (pop_stream cx).map (fun p => (.handle p.1, p.2))
termination_by t _cx => sizeOf t

/-- popSeq pops one value per type, in order. -/
def popSeq : List WitTy → QjsCallContext → Option (List HostVal × QjsCallContext)
  | [], cx => some ([], cx)
  | t :: ts, cx => do
    let (v, cx1) ← popVal t cx
    let (vs, cx2) ← popSeq ts cx1
    some (v :: vs, cx2)
termination_by ts _cx => sizeOf ts

/-- popFieldVals pops one value per record field, in field order. -/
def popFieldVals : List (String × WitTy) → QjsCallContext →
    Option (List HostVal × QjsCallContext)
  | [], cx => some ([], cx)
  | (_, t) :: fs, cx => do
    let (v, cx1) ← popVal t cx
    let (vs, cx2) ← popFieldVals fs cx1
    some (v :: vs, cx2)
termination_by fs _cx => sizeOf fs

end

mutual

/-- jsOf is the pure JS encoding of a conforming host value: the single JS
value that `pushVal` leaves on top of the stack (an arbitrary default on a
type/value mismatch, which conformance excludes). -/
def jsOf : WitTy → HostVal → JSVal
  | .bool, .bool b => .bool b
  | .u8, .uint n => .num (n : ℚ)
  | .s8, .sint i => .num (i : ℚ)
  | .u16, .uint n => .num (n : ℚ)
  | .s16, .sint i => .num (i : ℚ)
  | .u32, .uint n => .num (n : ℚ)
  | .s32, .sint i => .num (i : ℚ)
  | .u64, .uint n => .num (f64ofNat n)
  | .s64, .sint i => .num (f64ofInt i)
  | .f32, .float q => .num q
  | .f64, .float q => .num q
  | .char, .char c => .str (String.mk [c])
  | .string, .str s => .str s
  | .list t, .list es => .arr (jsOfElems t es)
  | .tuple ts, .tuple vs => .arr (jsOfSeq ts vs)
  | .record fs, .record vs => .obj (jsOfFields fs vs)
  | .option _, .noneV => .jsNull
  | .option t, .someV v => jsOf t v
  | .result _ _, .okV none => .obj [(("tag"), .str ("ok"))]
  | .result ok _, .okV (some v) =>
    match ok with
    | some t => .obj [(("tag"), .str ("ok")), (("val"), jsOf t v)]
    | none => JSVal.undef
  | .result _ _, .errV none => .obj [(("tag"), .str ("err"))]
  | .result _ err, .errV (some v) =>
    match err with
    | some t => .obj [(("tag"), .str ("err")), (("val"), jsOf t v)]
    | none => JSVal.undef
  | .variant _, .variantV tag none => .obj [(("tag"), .num (tag : ℚ))]
  | .variant cs, .variantV tag (some v) =>
    match cs[tag]? with
    | some (_, some t) => .obj [(("tag"), .num (tag : ℚ)), (("val"), jsOf t v)]
    | _ => JSVal.undef
  | .enum _, .enumV n => .num (i32ofU32 n : ℚ)
  | .flags _, .flagsV n => .num (n : ℚ)
  | .own, .handle h => .num (h : ℚ)
  | .borrow, .handle h => .num (h : ℚ)
  | .future, .handle h => .num (i32ofU32 h : ℚ)
  | .stream, .handle h => .num (i32ofU32 h : ℚ)
  | _, _ => JSVal.undef

/-- jsOfElems encodes list elements pointwise. -/
def jsOfElems (t : WitTy) : List HostVal → List JSVal
  | [] => []
  | e :: es => jsOf t e :: jsOfElems t es

/-- jsOfSeq encodes a tuple's components pointwise. -/
def jsOfSeq : List WitTy → List HostVal → List JSVal
  | t :: ts, v :: vs => jsOf t v :: jsOfSeq ts vs
  | _, _ => []

/-- jsOfFields encodes record fields as (lower-camel key, value) pairs. -/
def jsOfFields : List (String × WitTy) → List HostVal → List (String × JSVal)
  | f :: fs, v :: vs => (lowerCamel f.1, jsOf f.2 v) :: jsOfFields fs vs
  | _, _ => []

end

mutual

/-- Conforms t v states that host value v conforms to WIT type t and is
round-trip safe: 64-bit integers are below 2^53 in magnitude (they travel
through the f64 guest representation), f32 values are exactly
representable, enum discriminants and future/stream handles are below
2^31 (they travel through `new_int(_ as i32)`), and an option payload is
never itself a none (its JS encoding would be null, which pops as none). -/
inductive Conforms : WitTy → HostVal → Prop
  | bool (b : Bool) : Conforms .bool (.bool b)
  | u8 (n : Nat) : n < 2 ^ 8 → Conforms .u8 (.uint n)
  | s8 (i : Int) : -(2 ^ 7) ≤ i → i < 2 ^ 7 → Conforms .s8 (.sint i)
  | u16 (n : Nat) : n < 2 ^ 16 → Conforms .u16 (.uint n)
  | s16 (i : Int) : -(2 ^ 15) ≤ i → i < 2 ^ 15 → Conforms .s16 (.sint i)
  | u32 (n : Nat) : n < 2 ^ 32 → Conforms .u32 (.uint n)
  | s32 (i : Int) : -(2 ^ 31) ≤ i → i < 2 ^ 31 → Conforms .s32 (.sint i)
  | u64 (n : Nat) : n < 2 ^ 53 → Conforms .u64 (.uint n)
  | s64 (i : Int) : -(2 ^ 53) < i → i < 2 ^ 53 → Conforms .s64 (.sint i)
  | f32 (q : ℚ) : isF32exact q = true → Conforms .f32 (.float q)
  | f64 (q : ℚ) : Conforms .f64 (.float q)
  | char (c : Char) : Conforms .char (.char c)
  | string (s : String) : Conforms .string (.str s)
  | listNil (t : WitTy) : Conforms (.list t) (.list [])
  | listCons : Conforms t e → Conforms (.list t) (.list es) →
      Conforms (.list t) (.list (e :: es))
  | tuple : ConformsSeq ts vs → Conforms (.tuple ts) (.tuple vs)
  | record : ConformsFields fs vs → Conforms (.record fs) (.record vs)
  | optNone (t : WitTy) : Conforms (.option t) .noneV
  | optSome : Conforms t v → v ≠ .noneV → Conforms (.option t) (.someV v)
  | okNone (err : Option WitTy) : Conforms (.result none err) (.okV none)
  | okSome : Conforms t v → Conforms (.result (some t) err) (.okV (some v))
  | errNone (ok : Option WitTy) : Conforms (.result ok none) (.errV none)
  | errSome : Conforms t v → Conforms (.result ok (some t)) (.errV (some v))
  | variantNone : cs[tag]? = some (nm, none) → tag < 2 ^ 32 →
      Conforms (.variant cs) (.variantV tag none)
  | variantSome : cs[tag]? = some (nm, some t) → tag < 2 ^ 32 → Conforms t v →
      Conforms (.variant cs) (.variantV tag (some v))
  | enum (names : List String) (n : Nat) : n < names.length → n < 2 ^ 31 →
      Conforms (.enum names) (.enumV n)
  | flags (names : List String) (n : Nat) : n < 2 ^ 32 →
      Conforms (.flags names) (.flagsV n)
  | own (h : Nat) : h < 2 ^ 32 → Conforms .own (.handle h)
  | borrow (h : Nat) : h < 2 ^ 32 → Conforms .borrow (.handle h)
  | future (h : Nat) : h < 2 ^ 31 → Conforms .future (.handle h)
  | stream (h : Nat) : h < 2 ^ 31 → Conforms .stream (.handle h)

/-- ConformsSeq is pointwise conformance of a tuple's components. -/
inductive ConformsSeq : List WitTy → List HostVal → Prop
  | nil : ConformsSeq [] []
  | cons : Conforms t v → ConformsSeq ts vs → ConformsSeq (t :: ts) (v :: vs)

/-- ConformsFields is pointwise conformance of a record's field values. -/
inductive ConformsFields : List (String × WitTy) → List HostVal → Prop
  | nil : ConformsFields [] []
  | cons : Conforms t v → ConformsFields fs vs →
      ConformsFields ((nm, t) :: fs) (v :: vs)

end

/-- Wf states that a WIT type is well formed: record field names map to
pairwise distinct lower-camel-case keys (in valid WIT, field names are
distinct kebab-case identifiers, on which the camel conversion is
injective). -/
inductive Wf : WitTy → Prop
  | bool : Wf .bool
  | u8 : Wf .u8
  | s8 : Wf .s8
  | u16 : Wf .u16
  | s16 : Wf .s16
  | u32 : Wf .u32
  | s32 : Wf .s32
  | u64 : Wf .u64
  | s64 : Wf .s64
  | f32 : Wf .f32
  | f64 : Wf .f64
  | char : Wf .char
  | string : Wf .string
  | list : Wf t → Wf (.list t)
  | tuple : (∀ t ∈ ts, Wf t) → Wf (.tuple ts)
  | record : (fs.map (fun p => lowerCamel p.1)).Nodup →
      (∀ p ∈ fs, Wf p.2) → Wf (.record fs)
  | option : Wf t → Wf (.option t)
  | result : (∀ t, ok = some t → Wf t) → (∀ t, err = some t → Wf t) →
      Wf (.result ok err)
  | variant : (∀ c ∈ cs, ∀ t, c.2 = some t → Wf t) → Wf (.variant cs)
  | enum (names : List String) : Wf (.enum names)
  | flags (names : List String) : Wf (.flags names)
  | own : Wf .own
  | borrow : Wf .borrow
  | future : Wf .future
  | stream : Wf .stream

/-! Helper lemmas about the numeric conversions and the primitives. -/

theorem sig53_small (n : Nat) (h : n < 2 ^ 53) : sig53 n = n := by
  unfold sig53
  rw [if_pos h]

theorem f64ofNat_small (n : Nat) (h : n < 2 ^ 53) : f64ofNat n = (n : ℚ) := by
  simp [f64ofNat, sig53_small n h]

theorem f64ofInt_small (i : Int) (h1 : -(2 ^ 53) < i) (h2 : i < 2 ^ 53) :
    f64ofInt i = (i : ℚ) := by
  unfold f64ofInt
  split
  · rename_i hpos
    rw [sig53_small _ (by omega)]
    have h3 : (i.toNat : ℤ) = i := Int.toNat_of_nonneg hpos
    exact_mod_cast congrArg (fun z : ℤ => (z : ℚ)) h3
  · rename_i hneg
    rw [sig53_small _ (by omega)]
    have h3 : ((-i).toNat : ℤ) = -i := Int.toNat_of_nonneg (by omega)
    have h4 : (((-i).toNat : ℤ) : ℚ) = ((-i : ℤ) : ℚ) := congrArg (fun z : ℤ => (z : ℚ)) h3
    push_cast at h4 ⊢
    rw [h4]
    ring

theorem i32ofU32_small (n : Nat) (h : n < 2 ^ 31) : i32ofU32 n = (n : Int) := by
  unfold i32ofU32
  rw [if_pos h]

theorem qToI32_natCast (n : Nat) (h : n < 2 ^ 31) : qToI32 (n : ℚ) = some (n : Int) := by
  unfold qToI32
  rw [if_pos ⟨Rat.den_natCast n, by rw [Rat.num_natCast]; omega,
    by rw [Rat.num_natCast]; exact_mod_cast h⟩]
  rw [Rat.num_natCast]

theorem qToI32_intCast (i : Int) (h1 : -(2 ^ 31) ≤ i) (h2 : i < 2 ^ 31) :
    qToI32 (i : ℚ) = some i := by
  unfold qToI32
  rw [if_pos ⟨Rat.den_intCast i, by rw [Rat.num_intCast]; omega,
    by rw [Rat.num_intCast]; omega⟩]
  rw [Rat.num_intCast]

theorem qToU32_natCast (n : Nat) (h : n < 2 ^ 32) : qToU32 (n : ℚ) = some n := by
  unfold qToU32
  rw [if_pos ⟨Rat.den_natCast n, by rw [Rat.num_natCast]; omega,
    by rw [Rat.num_natCast]; exact_mod_cast h⟩]
  rw [Rat.num_natCast]
  simp

theorem qToU64_natCast (n : Nat) (h : n < 2 ^ 64) : qToU64 (n : ℚ) = some n := by
  unfold qToU64
  rw [if_pos ⟨Rat.den_natCast n, by rw [Rat.num_natCast]; omega,
    by rw [Rat.num_natCast]; exact_mod_cast h⟩]
  rw [Rat.num_natCast]
  simp

theorem qToI64_intCast (i : Int) (h1 : -(2 ^ 63) ≤ i) (h2 : i < 2 ^ 63) :
    qToI64 (i : ℚ) = some i := by
  unfold qToI64
  rw [if_pos ⟨Rat.den_intCast i, by rw [Rat.num_intCast]; omega,
    by rw [Rat.num_intCast]; omega⟩]
  rw [Rat.num_intCast]

theorem wrapU8_id (n : Nat) (h : n < 2 ^ 8) : wrapU8 (n : Int) = n := by
  unfold wrapU8
  omega

theorem wrapI8_id (i : Int) (h1 : -(2 ^ 7) ≤ i) (h2 : i < 2 ^ 7) : wrapI8 i = i := by
  unfold wrapI8
  omega

theorem wrapU16_id (n : Nat) (h : n < 2 ^ 16) : wrapU16 (n : Int) = n := by
  unfold wrapU16
  omega

theorem wrapI16_id (i : Int) (h1 : -(2 ^ 15) ≤ i) (h2 : i < 2 ^ 15) : wrapI16 i = i := by
  unfold wrapI16
  omega

theorem takeN_append (l1 l2 : List JSVal) : takeN l1.length (l1 ++ l2) = some (l1, l2) := by
  induction l1 with
  | nil => rfl
  | cons x l ih => simp [takeN, ih]

theorem idxList_eq_self (es : List JSVal) : idxList es es.length = es := by
  induction es with
  | nil => rfl
  | cons e es ih =>
    simp only [idxList, List.length_cons, List.range_succ_eq_map, List.map_cons,
      List.map_map] at ih ⊢
    simp only [List.getD_cons_zero, Function.comp_def, List.getD_cons_succ]
    exact congrArg (fun l => e :: l) ih

theorem objSet_fresh (obj : List (String × JSVal)) (k : String) (v : JSVal)
    (h : ∀ p ∈ obj, p.1 ≠ k) : objSet obj k v = obj ++ [(k, v)] := by
  induction obj with
  | nil => rfl
  | cons p rest ih =>
    obtain ⟨k2, v2⟩ := p
    have h1 : k2 ≠ k := h (k2, v2) (by simp)
    simp [objSet, h1, ih (fun q hq => h q (by simp [hq]))]

theorem foldl_objSet_fresh (pairs : List (String × JSVal)) :
    ∀ acc : List (String × JSVal),
      (∀ p ∈ pairs, ∀ q ∈ acc, q.1 ≠ lowerCamel p.1) →
      (pairs.map (fun p => lowerCamel p.1)).Nodup →
      pairs.foldl (fun o p => objSet o (lowerCamel p.1) p.2) acc
        = acc ++ pairs.map (fun p => (lowerCamel p.1, p.2)) := by
  induction pairs with
  | nil => intro acc _ _; simp
  | cons p pairs ih =>
    intro acc hfresh hnd
    simp only [List.map_cons, List.nodup_cons, List.mem_map] at hnd
    simp only [List.foldl_cons]
    rw [objSet_fresh acc (lowerCamel p.1) p.2 (fun q hq => hfresh p (by simp) q hq)]
    rw [ih (acc ++ [(lowerCamel p.1, p.2)]) ?fresh hnd.2]
    · simp
    case fresh =>
      intro r hr q hq
      rcases List.mem_append.mp hq with hq2 | hq2
      · exact hfresh r (by simp [hr]) q hq2
      · have hq3 : q = (lowerCamel p.1, p.2) := by simpa using hq2
        subst hq3
        intro hcontra
        exact hnd.1 ⟨r, hr, hcontra.symm⟩

theorem buildObj_eq (pairs : List (String × JSVal))
    (hnd : (pairs.map (fun p => lowerCamel p.1)).Nodup) :
    buildObj pairs = pairs.map (fun p => (lowerCamel p.1, p.2)) := by
  unfold buildObj
  rw [foldl_objSet_fresh pairs [] (by simp) hnd]
  simp

set_option maxHeartbeats 2000000 in
theorem jsOfElems_length (t : WitTy) (es : List HostVal) :
    (jsOfElems t es).length = es.length := by
  induction es with
  | nil => simp [jsOfElems]
  | cons e es ih => simp [jsOfElems, ih]

set_option maxHeartbeats 2000000 in
theorem jsOfSeq_length (ts : List WitTy) (vs : List HostVal)
    (h : ConformsSeq ts vs) :
    (jsOfSeq ts vs).length = ts.length ∧ ts.length = vs.length := by
  induction ts generalizing vs with
  | nil => cases h; simp [jsOfSeq]
  | cons t ts ih =>
    cases h with
    | cons h1 h2 =>
      have := ih _ h2
      simp [jsOfSeq, this.1, this.2]

set_option maxHeartbeats 2000000 in
theorem jsOfFields_length (fs : List (String × WitTy)) (vs : List HostVal)
    (h : ConformsFields fs vs) :
    (jsOfFields fs vs).length = fs.length ∧ fs.length = vs.length := by
  induction fs generalizing vs with
  | nil => cases h; simp [jsOfFields]
  | cons f fs ih =>
    cases h with
    | cons h1 h2 =>
      have := ih _ h2
      simp [jsOfFields, this.1, this.2]

set_option maxHeartbeats 2000000 in
theorem zip_map_jsOfFields (fs : List (String × WitTy)) (vs : List HostVal)
    (h : ConformsFields fs vs) :
    ((fs.map (fun p => p.1)).zip ((jsOfFields fs vs).map (fun p => p.2))).map
        (fun p => (lowerCamel p.1, p.2))
      = jsOfFields fs vs := by
  induction fs generalizing vs with
  | nil => cases h; simp [jsOfFields]
  | cons f fs ih =>
    cases h with
    | cons h1 h2 => simp [jsOfFields, ih _ h2]

theorem objGet_cons_self (k : String) (v : JSVal) (rest : List (String × JSVal)) :
    objGet ((k, v) :: rest) k = some v := by
  simp [objGet]

theorem objGet_cons_ne (k k2 : String) (v : JSVal) (rest : List (String × JSVal))
    (h : k2 ≠ k) : objGet ((k2, v) :: rest) k = objGet rest k := by
  simp [objGet, h]

set_option maxHeartbeats 2000000 in
theorem fetch_jsOfFields (fs : List (String × WitTy)) (vs : List HostVal)
    (h : ConformsFields fs vs)
    (hnd : (fs.map (fun p => lowerCamel p.1)).Nodup) :
    (fs.map (fun p => p.1)).map
        (fun nm => (objGet (jsOfFields fs vs) (lowerCamel nm)).getD .undef)
      = (jsOfFields fs vs).map (fun p => p.2) := by
  induction fs generalizing vs with
  | nil => cases h; simp [jsOfFields]
  | cons f fs ih =>
    cases h with
    | cons h1 h2 =>
      rename_i t v vs2 nm
      simp only [List.map_cons, List.nodup_cons, List.mem_map] at hnd
      simp only [jsOfFields, List.map_cons, objGet_cons_self, Option.getD_some]
      refine congrArg (fun l => _ :: l) ?_
      refine Eq.trans (List.map_congr_left ?_) (ih _ h2 hnd.2)
      intro nm2 hnm2
      have hne : lowerCamel nm ≠ lowerCamel nm2 := by
        rcases List.mem_map.mp hnm2 with ⟨p, hp, hpe⟩
        intro hcontra
        exact hnd.1 ⟨p, hp, by rw [hpe, hcontra]⟩
      rw [objGet_cons_ne _ _ _ _ hne]

/-! Push correctness: lowering a conforming value leaves exactly its JS
encoding on top of the stack and touches nothing else. -/

set_option maxHeartbeats 4000000 in
mutual

/-- pushVal on a conforming value of a well-formed type pushes exactly the
JS encoding of the value. -/
theorem pushVal_ok (t : WitTy) (v : HostVal) (h : Conforms t v) (hw : Wf t)
    (s : List JSVal) (tmp : List String) (d : List (Nat × LayoutM)) :
    pushVal t v ⟨s, tmp, d⟩ = some ⟨jsOf t v :: s, tmp, d⟩ := by
  cases h with
  | bool b => simp [pushVal, jsOf, push_bool, pushRaw]
  | u8 n h1 => simp [pushVal, jsOf, push_u8, pushRaw]
  | s8 i h1 h2 => simp [pushVal, jsOf, push_s8, pushRaw]
  | u16 n h1 => simp [pushVal, jsOf, push_u16, pushRaw]
  | s16 i h1 h2 => simp [pushVal, jsOf, push_s16, pushRaw]
  | u32 n h1 => simp [pushVal, jsOf, push_u32, pushRaw]
  | s32 i h1 h2 => simp [pushVal, jsOf, push_s32, pushRaw]
  | u64 n h1 => simp [pushVal, jsOf, push_u64, pushRaw]
  | s64 i h1 h2 => simp [pushVal, jsOf, push_s64, pushRaw]
  | f32 q h1 => simp [pushVal, jsOf, push_f32, pushRaw]
  | f64 q => simp [pushVal, jsOf, push_f64, pushRaw]
  | char c => simp [pushVal, jsOf, push_char, pushRaw]
  | string str2 => simp [pushVal, jsOf, push_string, pushRaw]
  | listNil t2 =>
    simp [pushVal, jsOf, jsOfElems, push_list, pushRaw, pushElems]
  | listCons h1 h2 =>
    rename_i t2 e es
    cases hw with
    | list hwt =>
      have hstep := pushElems_ok t2 (e :: es) (Conforms.listCons h1 h2) hwt [] s tmp d
      simp only [pushVal, push_list, pushRaw]
      simp only [jsOf]
      rw [hstep]
      simp
  | tuple hseq =>
    rename_i ts vs
    cases hw with
    | tuple hws =>
      have hlen := jsOfSeq_length ts vs hseq
      simp only [pushVal]
      rw [pushSeq_ok ts vs hseq hws s tmp d]
      simp only [Option.bind_eq_bind, Option.some_bind]
      unfold push_tuple
      rw [show ts.length = ((jsOfSeq ts vs).reverse).length by simp [hlen.1]]
      rw [takeN_append]
      simp [jsOf]
  | record hf =>
    rename_i fs vs
    cases hw with
    | record hnd hwf =>
      have hlen := jsOfFields_length fs vs hf
      simp only [pushVal]
      rw [pushFields_ok fs vs hf hwf s tmp d]
      simp only [Option.bind_eq_bind, Option.some_bind]
      unfold push_record
      rw [show (fs.map (fun p => p.1)).length
          = (((jsOfFields fs vs).map (fun p => p.2)).reverse).length by simp [hlen.1]]
      rw [takeN_append]
      have hkeys : (((fs.map (fun p => p.1)).zip
          ((jsOfFields fs vs).map (fun p => p.2))).map (fun p => lowerCamel p.1))
          = fs.map (fun p => lowerCamel p.1) := by
        have hmf : (((fs.map (fun p => p.1)).zip
            ((jsOfFields fs vs).map (fun p => p.2))).map Prod.fst)
            = fs.map (fun p => p.1) :=
          List.map_fst_zip _ _ (by simp [hlen.1, hlen.2])
        calc (((fs.map (fun p => p.1)).zip
              ((jsOfFields fs vs).map (fun p => p.2))).map (fun p => lowerCamel p.1))
            = ((((fs.map (fun p => p.1)).zip
              ((jsOfFields fs vs).map (fun p => p.2))).map Prod.fst).map lowerCamel) := by
              simp [List.map_map, Function.comp_def]
          _ = (fs.map (fun p => p.1)).map lowerCamel := by rw [hmf]
          _ = fs.map (fun p => lowerCamel p.1) := by simp [List.map_map, Function.comp_def]
      simp only [Option.bind_eq_bind, Option.some_bind, List.reverse_reverse]
      rw [buildObj_eq _ (by rw [hkeys]; exact hnd), zip_map_jsOfFields fs vs hf]
      simp [jsOf]
  | optNone t2 => simp [pushVal, jsOf, push_option, pushRaw]
  | optSome h1 hne =>
    rename_i t2 w
    cases hw with
    | option hwt =>
      simp only [pushVal]
      rw [pushVal_ok t2 w h1 hwt s tmp d]
      simp [push_option, jsOf]
  | okNone errT => simp [pushVal, jsOf, push_result]
  | okSome h1 =>
    rename_i t2 w errT
    cases hw with
    | result hok herr =>
      simp only [pushVal]
      rw [pushVal_ok t2 w h1 (hok t2 rfl) s tmp d]
      simp [push_result, jsOf]
  | errNone okT => simp [pushVal, jsOf, push_result]
  | errSome h1 =>
    rename_i t2 w okT
    cases hw with
    | result hok herr =>
      simp only [pushVal]
      rw [pushVal_ok t2 w h1 (herr t2 rfl) s tmp d]
      simp [push_result, jsOf]
  | variantNone hget htag =>
    simp [pushVal, jsOf, push_variant, hget]
  | variantSome hget htag h1 =>
    rename_i cs tag nm t2 w
    cases hw with
    | variant hwc =>
      have hwt : Wf t2 := hwc _ (List.getElem?_mem hget) t2 rfl
      simp only [pushVal, hget]
      rw [pushVal_ok t2 w h1 hwt s tmp d]
      simp [push_variant, jsOf, hget]
  | enum names n h1 h2 => simp [pushVal, jsOf, push_enum, pushRaw]
  | flags names n h1 => simp [pushVal, jsOf, push_flags, pushRaw]
  | own hh => simp [pushVal, jsOf, push_own, pushRaw]
  | borrow hh => simp [pushVal, jsOf, push_borrow, pushRaw]
  | future hh => simp [pushVal, jsOf, push_future, pushRaw]
  | stream hh => simp [pushVal, jsOf, push_stream, pushRaw]
termination_by sizeOf v

/-- pushElems appends the JS encodings of the elements to the array on top
of the stack, in order. -/
theorem pushElems_ok (t : WitTy) (es : List HostVal)
    (h : Conforms (.list t) (.list es)) (hw : Wf t)
    (acc s : List JSVal) (tmp : List String) (d : List (Nat × LayoutM)) :
    pushElems t es ⟨.arr acc :: s, tmp, d⟩
      = some ⟨.arr (acc ++ jsOfElems t es) :: s, tmp, d⟩ := by
  cases h with
  | listNil _ => simp [pushElems, jsOfElems]
  | listCons h1 h2 =>
    rename_i e es2
    simp only [pushElems]
    rw [pushVal_ok t e h1 hw (.arr acc :: s) tmp d]
    simp only [Option.bind_eq_bind, Option.some_bind, list_append]
    rw [pushElems_ok t es2 h2 hw (acc ++ [jsOf t e]) s tmp d]
    simp [jsOfElems]
termination_by sizeOf es

/-- pushSeq pushes the JS encodings of a conforming tuple's components,
first component deepest. -/
theorem pushSeq_ok (ts : List WitTy) (vs : List HostVal)
    (h : ConformsSeq ts vs) (hw : ∀ t2 ∈ ts, Wf t2)
    (s : List JSVal) (tmp : List String) (d : List (Nat × LayoutM)) :
    pushSeq ts vs ⟨s, tmp, d⟩
      = some ⟨(jsOfSeq ts vs).reverse ++ s, tmp, d⟩ := by
  cases h with
  | nil => simp [pushSeq, jsOfSeq]
  | cons h1 h2 =>
    rename_i t2 w ts2 vs2
    simp only [pushSeq]
    rw [pushVal_ok t2 w h1 (hw t2 (by simp)) s tmp d]
    simp only [Option.bind_eq_bind, Option.some_bind]
    rw [pushSeq_ok ts2 vs2 h2 (fun x hx => hw x (by simp [hx])) _ tmp d]
    simp [jsOfSeq]
termination_by sizeOf vs

/-- pushFields pushes the JS encodings of a conforming record's field
values, first field deepest. -/
theorem pushFields_ok (fs : List (String × WitTy)) (vs : List HostVal)
    (h : ConformsFields fs vs) (hw : ∀ p ∈ fs, Wf p.2)
    (s : List JSVal) (tmp : List String) (d : List (Nat × LayoutM)) :
    pushFields fs vs ⟨s, tmp, d⟩
      = some ⟨((jsOfFields fs vs).map (fun p => p.2)).reverse ++ s, tmp, d⟩ := by
  cases h with
  | nil => simp [pushFields, jsOfFields]
  | cons h1 h2 =>
    rename_i t2 w fs2 vs2 nm
    simp only [pushFields]
    rw [pushVal_ok t2 w h1 (hw (nm, t2) (by simp)) s tmp d]
    simp only [Option.bind_eq_bind, Option.some_bind]
    rw [pushFields_ok fs2 vs2 h2 (fun p hp => hw p (by simp [hp])) _ tmp d]
    simp [jsOfFields]
termination_by sizeOf vs

end

/-! Pop correctness: lifting the JS encoding of a conforming value returns
the value and restores the stack (growing only the temp string buffer). -/

theorem objGet_tag_pair (v p : JSVal) :
    objGet [(("tag"), v), (("val"), p)] ("tag") = some v := by
  simp [objGet]

theorem objGet_val_pair (v p : JSVal) :
    objGet [(("tag"), v), (("val"), p)] ("val") = some p := by
  simp [objGet]

theorem objGet_tag_only (v : JSVal) : objGet [(("tag"), v)] ("tag") = some v := by
  simp [objGet]

theorem objGet_val_only (v : JSVal) : objGet [(("tag"), v)] ("val") = none := by
  simp [objGet]

/-- jsOf never encodes a conforming non-none value as null or undefined
(only a none option encodes to null). -/
theorem jsOf_not_nullish (t : WitTy) (v : HostVal) (h : Conforms t v)
    (hne : v ≠ .noneV) : isNullish (jsOf t v) = false := by
  cases h
  case optNone => exact absurd rfl hne
  case optSome h1 hne2 =>
    rename_i t2 w
    simp only [jsOf]
    exact jsOf_not_nullish t2 w h1 hne2
  case variantSome hget htag h1 =>
    simp [jsOf, hget, isNullish]
  all_goals simp [jsOf, isNullish]
termination_by sizeOf v

/-! Per-primitive pipeline lemmas with an abstract number, then the
non-recursive popVal cases (kept standalone so every declaration stays
small). -/

theorem pop_u8_step (q : ℚ) (j : Int) (hq : qToI32 q = some j) (s : List JSVal)
    (tmp : List String) (d : List (Nat × LayoutM)) :
    pop_u8 ⟨.num q :: s, tmp, d⟩ = some (wrapU8 j, ⟨s, tmp, d⟩) := by
  simp [pop_u8, popRaw, hq]

theorem pop_s8_step (q : ℚ) (j : Int) (hq : qToI32 q = some j) (s : List JSVal)
    (tmp : List String) (d : List (Nat × LayoutM)) :
    pop_s8 ⟨.num q :: s, tmp, d⟩ = some (wrapI8 j, ⟨s, tmp, d⟩) := by
  simp [pop_s8, popRaw, hq]

theorem pop_u16_step (q : ℚ) (j : Int) (hq : qToI32 q = some j) (s : List JSVal)
    (tmp : List String) (d : List (Nat × LayoutM)) :
    pop_u16 ⟨.num q :: s, tmp, d⟩ = some (wrapU16 j, ⟨s, tmp, d⟩) := by
  simp [pop_u16, popRaw, hq]

theorem pop_s16_step (q : ℚ) (j : Int) (hq : qToI32 q = some j) (s : List JSVal)
    (tmp : List String) (d : List (Nat × LayoutM)) :
    pop_s16 ⟨.num q :: s, tmp, d⟩ = some (wrapI16 j, ⟨s, tmp, d⟩) := by
  simp [pop_s16, popRaw, hq]

theorem pop_u32_step (q : ℚ) (m : Nat) (hq : qToU32 q = some m) (s : List JSVal)
    (tmp : List String) (d : List (Nat × LayoutM)) :
    pop_u32 ⟨.num q :: s, tmp, d⟩ = some (m, ⟨s, tmp, d⟩) := by
  simp [pop_u32, popRaw, hq]

theorem pop_s32_step (q : ℚ) (j : Int) (hq : qToI32 q = some j) (s : List JSVal)
    (tmp : List String) (d : List (Nat × LayoutM)) :
    pop_s32 ⟨.num q :: s, tmp, d⟩ = some (j, ⟨s, tmp, d⟩) := by
  simp [pop_s32, popRaw, hq]

theorem pop_u64_step (q : ℚ) (m : Nat) (hq : qToU64 q = some m) (s : List JSVal)
    (tmp : List String) (d : List (Nat × LayoutM)) :
    pop_u64 ⟨.num q :: s, tmp, d⟩ = some (m, ⟨s, tmp, d⟩) := by
  simp [pop_u64, popRaw, hq]

theorem pop_s64_step (q : ℚ) (j : Int) (hq : qToI64 q = some j) (s : List JSVal)
    (tmp : List String) (d : List (Nat × LayoutM)) :
    pop_s64 ⟨.num q :: s, tmp, d⟩ = some (j, ⟨s, tmp, d⟩) := by
  simp [pop_s64, popRaw, hq]

theorem pop_enum_step (q : ℚ) (m : Nat) (hq : qToU32 q = some m) (s : List JSVal)
    (tmp : List String) (d : List (Nat × LayoutM)) :
    pop_enum ⟨.num q :: s, tmp, d⟩ = some (m, ⟨s, tmp, d⟩) := by
  simp [pop_enum, popRaw, hq]

theorem pop_flags_step (q : ℚ) (m : Nat) (hq : qToU32 q = some m) (s : List JSVal)
    (tmp : List String) (d : List (Nat × LayoutM)) :
    pop_flags ⟨.num q :: s, tmp, d⟩ = some (m, ⟨s, tmp, d⟩) := by
  simp [pop_flags, popRaw, hq]

theorem pop_own_step (q : ℚ) (m : Nat) (hq : qToU32 q = some m) (s : List JSVal)
    (tmp : List String) (d : List (Nat × LayoutM)) :
    pop_own ⟨.num q :: s, tmp, d⟩ = some (m, ⟨s, tmp, d⟩) := by
  simp [pop_own, popRaw, hq]

theorem pop_borrow_step (q : ℚ) (m : Nat) (hq : qToU32 q = some m) (s : List JSVal)
    (tmp : List String) (d : List (Nat × LayoutM)) :
    pop_borrow ⟨.num q :: s, tmp, d⟩ = some (m, ⟨s, tmp, d⟩) := by
  simp [pop_borrow, popRaw, hq]

theorem pop_future_step (q : ℚ) (m : Nat) (hq : qToU32 q = some m) (s : List JSVal)
    (tmp : List String) (d : List (Nat × LayoutM)) :
    pop_future ⟨.num q :: s, tmp, d⟩ = some (m, ⟨s, tmp, d⟩) := by
  simp [pop_future, popRaw, hq]

theorem pop_stream_step (q : ℚ) (m : Nat) (hq : qToU32 q = some m) (s : List JSVal)
    (tmp : List String) (d : List (Nat × LayoutM)) :
    pop_stream ⟨.num q :: s, tmp, d⟩ = some (m, ⟨s, tmp, d⟩) := by
  simp [pop_stream, popRaw, hq]

theorem pop_variant_step (fs : List (String × JSVal)) (q : ℚ) (tg : Nat)
    (htag : objGet fs ("tag") = some (.num q)) (hq : qToU32 q = some tg)
    (s : List JSVal) (tmp : List String) (d : List (Nat × LayoutM)) :
    pop_variant ⟨.obj fs :: s, tmp, d⟩
      = some (tg, ⟨((objGet fs ("val")).getD .undef) :: s, tmp, d⟩) := by
  simp [pop_variant, popRaw, htag, hq]

theorem popVal_bool_ok (b : Bool) (s : List JSVal) (tmp : List String)
    (d : List (Nat × LayoutM)) :
    popVal .bool ⟨jsOf .bool (.bool b) :: s, tmp, d⟩
      = some (.bool b, ⟨s, tmp, d⟩) := by
  simp [popVal, jsOf, pop_bool, popRaw]

theorem popVal_u8_ok (n : Nat) (h1 : n < 2 ^ 8) (s : List JSVal)
    (tmp : List String) (d : List (Nat × LayoutM)) :
    popVal .u8 ⟨jsOf .u8 (.uint n) :: s, tmp, d⟩ = some (.uint n, ⟨s, tmp, d⟩) := by
  simp only [jsOf, popVal]
  rw [pop_u8_step _ _ (qToI32_natCast n (by omega)) s tmp d]
  rw [wrapU8_id n h1]
  simp

theorem popVal_s8_ok (i : Int) (h1 : -(2 ^ 7) ≤ i) (h2 : i < 2 ^ 7)
    (s : List JSVal) (tmp : List String) (d : List (Nat × LayoutM)) :
    popVal .s8 ⟨jsOf .s8 (.sint i) :: s, tmp, d⟩ = some (.sint i, ⟨s, tmp, d⟩) := by
  simp only [jsOf, popVal]
  rw [pop_s8_step _ _ (qToI32_intCast i (by omega) (by omega)) s tmp d]
  rw [wrapI8_id i h1 h2]
  simp

theorem popVal_u16_ok (n : Nat) (h1 : n < 2 ^ 16) (s : List JSVal)
    (tmp : List String) (d : List (Nat × LayoutM)) :
    popVal .u16 ⟨jsOf .u16 (.uint n) :: s, tmp, d⟩ = some (.uint n, ⟨s, tmp, d⟩) := by
  simp only [jsOf, popVal]
  rw [pop_u16_step _ _ (qToI32_natCast n (by omega)) s tmp d]
  rw [wrapU16_id n h1]
  simp

theorem popVal_s16_ok (i : Int) (h1 : -(2 ^ 15) ≤ i) (h2 : i < 2 ^ 15)
    (s : List JSVal) (tmp : List String) (d : List (Nat × LayoutM)) :
    popVal .s16 ⟨jsOf .s16 (.sint i) :: s, tmp, d⟩ = some (.sint i, ⟨s, tmp, d⟩) := by
  simp only [jsOf, popVal]
  rw [pop_s16_step _ _ (qToI32_intCast i (by omega) (by omega)) s tmp d]
  rw [wrapI16_id i h1 h2]
  simp

theorem popVal_u32_ok (n : Nat) (h1 : n < 2 ^ 32) (s : List JSVal)
    (tmp : List String) (d : List (Nat × LayoutM)) :
    popVal .u32 ⟨jsOf .u32 (.uint n) :: s, tmp, d⟩ = some (.uint n, ⟨s, tmp, d⟩) := by
  simp only [jsOf, popVal]
  rw [pop_u32_step _ _ (qToU32_natCast n h1) s tmp d]
  simp

theorem popVal_s32_ok (i : Int) (h1 : -(2 ^ 31) ≤ i) (h2 : i < 2 ^ 31)
    (s : List JSVal) (tmp : List String) (d : List (Nat × LayoutM)) :
    popVal .s32 ⟨jsOf .s32 (.sint i) :: s, tmp, d⟩ = some (.sint i, ⟨s, tmp, d⟩) := by
  simp only [jsOf, popVal]
  rw [pop_s32_step _ _ (qToI32_intCast i h1 h2) s tmp d]
  simp

theorem popVal_u64_ok (n : Nat) (h1 : n < 2 ^ 53) (s : List JSVal)
    (tmp : List String) (d : List (Nat × LayoutM)) :
    popVal .u64 ⟨jsOf .u64 (.uint n) :: s, tmp, d⟩ = some (.uint n, ⟨s, tmp, d⟩) := by
  simp only [jsOf, popVal]
  rw [f64ofNat_small n h1]
  rw [pop_u64_step _ _ (qToU64_natCast n (by omega)) s tmp d]
  simp

theorem popVal_s64_ok (i : Int) (h1 : -(2 ^ 53) < i) (h2 : i < 2 ^ 53)
    (s : List JSVal) (tmp : List String) (d : List (Nat × LayoutM)) :
    popVal .s64 ⟨jsOf .s64 (.sint i) :: s, tmp, d⟩ = some (.sint i, ⟨s, tmp, d⟩) := by
  simp only [jsOf, popVal]
  rw [f64ofInt_small i h1 h2]
  rw [pop_s64_step _ _ (qToI64_intCast i (by omega) (by omega)) s tmp d]
  simp

theorem popVal_f32_ok (q : ℚ) (h1 : isF32exact q = true) (s : List JSVal)
    (tmp : List String) (d : List (Nat × LayoutM)) :
    popVal .f32 ⟨jsOf .f32 (.float q) :: s, tmp, d⟩ = some (.float q, ⟨s, tmp, d⟩) := by
  simp [popVal, jsOf, pop_f32, popRaw, f32Round, h1]

theorem popVal_f64_ok (q : ℚ) (s : List JSVal) (tmp : List String)
    (d : List (Nat × LayoutM)) :
    popVal .f64 ⟨jsOf .f64 (.float q) :: s, tmp, d⟩ = some (.float q, ⟨s, tmp, d⟩) := by
  simp [popVal, jsOf, pop_f64, popRaw]

theorem popVal_char_ok (c : Char) (s : List JSVal) (tmp : List String)
    (d : List (Nat × LayoutM)) :
    popVal .char ⟨jsOf .char (.char c) :: s, tmp, d⟩ = some (.char c, ⟨s, tmp, d⟩) := by
  simp [popVal, jsOf, pop_char, popRaw]

theorem popVal_string_ok (str2 : String) (s : List JSVal) (tmp : List String)
    (d : List (Nat × LayoutM)) :
    popVal .string ⟨jsOf .string (.str str2) :: s, tmp, d⟩
      = some (.str str2, ⟨s, tmp ++ [str2], d⟩) := by
  simp [popVal, jsOf, pop_string, popRaw]

theorem popVal_listNil_ok (t2 : WitTy) (s : List JSVal) (tmp : List String)
    (d : List (Nat × LayoutM)) :
    popVal (.list t2) ⟨jsOf (.list t2) (.list []) :: s, tmp, d⟩
      = some (.list [], ⟨s, tmp, d⟩) := by
  simp [popVal, jsOf, jsOfElems, pop_list, popRaw, popNwith]

theorem popVal_optNone_ok (t2 : WitTy) (s : List JSVal) (tmp : List String)
    (d : List (Nat × LayoutM)) :
    popVal (.option t2) ⟨jsOf (.option t2) .noneV :: s, tmp, d⟩
      = some (.noneV, ⟨s, tmp, d⟩) := by
  simp [popVal, jsOf, pop_option, popRaw, isNullish]

theorem popVal_okNone_ok (errT : Option WitTy) (s : List JSVal) (tmp : List String)
    (d : List (Nat × LayoutM)) :
    popVal (.result none errT) ⟨jsOf (.result none errT) (.okV none) :: s, tmp, d⟩
      = some (.okV none, ⟨s, tmp, d⟩) := by
  simp [popVal, jsOf, pop_result, popRaw, objGet_tag_only, objGet_val_only]

theorem popVal_errNone_ok (okT : Option WitTy) (s : List JSVal) (tmp : List String)
    (d : List (Nat × LayoutM)) :
    popVal (.result okT none) ⟨jsOf (.result okT none) (.errV none) :: s, tmp, d⟩
      = some (.errV none, ⟨s, tmp, d⟩) := by
  simp [popVal, jsOf, pop_result, popRaw, objGet_tag_only, objGet_val_only]

theorem popVal_variantNone_ok (cs : List (String × Option WitTy)) (tag : Nat)
    (nm : String) (hget : cs[tag]? = some (nm, none)) (htag : tag < 2 ^ 32)
    (s : List JSVal) (tmp : List String) (d : List (Nat × LayoutM)) :
    popVal (.variant cs) ⟨jsOf (.variant cs) (.variantV tag none) :: s, tmp, d⟩
      = some (.variantV tag none, ⟨s, tmp, d⟩) := by
  simp only [jsOf, popVal]
  rw [pop_variant_step _ (tag : ℚ) tag (objGet_tag_only _)
    (qToU32_natCast tag htag) s tmp d]
  simp only [objGet_val_only, Option.getD_none, Option.bind_eq_bind, Option.some_bind]
  split
  · rename_i fst t heq
    rw [hget] at heq
    simp at heq
  · rename_i fst heq
    simp [popRaw]
  · rename_i heq
    rw [hget] at heq
    simp at heq

theorem popVal_enum_ok (names : List String) (n : Nat) (_h1 : n < names.length)
    (h2 : n < 2 ^ 31) (s : List JSVal) (tmp : List String)
    (d : List (Nat × LayoutM)) :
    popVal (.enum names) ⟨jsOf (.enum names) (.enumV n) :: s, tmp, d⟩
      = some (.enumV n, ⟨s, tmp, d⟩) := by
  simp only [jsOf, popVal]
  rw [i32ofU32_small n h2, Int.cast_natCast]
  rw [pop_enum_step _ _ (qToU32_natCast n (by omega)) s tmp d]
  simp

theorem popVal_flags_ok (names : List String) (n : Nat) (h1 : n < 2 ^ 32)
    (s : List JSVal) (tmp : List String) (d : List (Nat × LayoutM)) :
    popVal (.flags names) ⟨jsOf (.flags names) (.flagsV n) :: s, tmp, d⟩
      = some (.flagsV n, ⟨s, tmp, d⟩) := by
  simp only [jsOf, popVal]
  rw [pop_flags_step _ _ (qToU32_natCast n h1) s tmp d]
  simp

theorem popVal_own_ok (hh : Nat) (hlt : hh < 2 ^ 32) (s : List JSVal)
    (tmp : List String) (d : List (Nat × LayoutM)) :
    popVal .own ⟨jsOf .own (.handle hh) :: s, tmp, d⟩
      = some (.handle hh, ⟨s, tmp, d⟩) := by
  simp only [jsOf, popVal]
  rw [pop_own_step _ _ (qToU32_natCast hh hlt) s tmp d]
  simp

theorem popVal_borrow_ok (hh : Nat) (hlt : hh < 2 ^ 32) (s : List JSVal)
    (tmp : List String) (d : List (Nat × LayoutM)) :
    popVal .borrow ⟨jsOf .borrow (.handle hh) :: s, tmp, d⟩
      = some (.handle hh, ⟨s, tmp, d⟩) := by
  simp only [jsOf, popVal]
  rw [pop_borrow_step _ _ (qToU32_natCast hh hlt) s tmp d]
  simp

theorem popVal_future_ok (hh : Nat) (hlt : hh < 2 ^ 31) (s : List JSVal)
    (tmp : List String) (d : List (Nat × LayoutM)) :
    popVal .future ⟨jsOf .future (.handle hh) :: s, tmp, d⟩
      = some (.handle hh, ⟨s, tmp, d⟩) := by
  simp only [jsOf, popVal]
  rw [i32ofU32_small hh hlt, Int.cast_natCast]
  rw [pop_future_step _ _ (qToU32_natCast hh (by omega)) s tmp d]
  simp

theorem popVal_stream_ok (hh : Nat) (hlt : hh < 2 ^ 31) (s : List JSVal)
    (tmp : List String) (d : List (Nat × LayoutM)) :
    popVal .stream ⟨jsOf .stream (.handle hh) :: s, tmp, d⟩
      = some (.handle hh, ⟨s, tmp, d⟩) := by
  simp only [jsOf, popVal]
  rw [i32ofU32_small hh hlt, Int.cast_natCast]
  rw [pop_stream_step _ _ (qToU32_natCast hh (by omega)) s tmp d]
  simp

set_option maxHeartbeats 4000000 in
mutual

/-- popVal on the JS encoding of a conforming value of a well-formed type
returns the value and leaves the rest of the stack intact; only the temp
string buffer may grow. -/
theorem popVal_ok (t : WitTy) (v : HostVal) (h : Conforms t v) (hw : Wf t)
    (s : List JSVal) (tmp : List String) (d : List (Nat × LayoutM)) :
    ∃ tmp2, popVal t ⟨jsOf t v :: s, tmp, d⟩ = some (v, ⟨s, tmp2, d⟩) := by
  cases h with
  | bool b => exact ⟨tmp, popVal_bool_ok b s tmp d⟩
  | u8 n h1 => exact ⟨tmp, popVal_u8_ok n h1 s tmp d⟩
  | s8 i h1 h2 => exact ⟨tmp, popVal_s8_ok i h1 h2 s tmp d⟩
  | u16 n h1 => exact ⟨tmp, popVal_u16_ok n h1 s tmp d⟩
  | s16 i h1 h2 => exact ⟨tmp, popVal_s16_ok i h1 h2 s tmp d⟩
  | u32 n h1 => exact ⟨tmp, popVal_u32_ok n h1 s tmp d⟩
  | s32 i h1 h2 => exact ⟨tmp, popVal_s32_ok i h1 h2 s tmp d⟩
  | u64 n h1 => exact ⟨tmp, popVal_u64_ok n h1 s tmp d⟩
  | s64 i h1 h2 => exact ⟨tmp, popVal_s64_ok i h1 h2 s tmp d⟩
  | f32 q h1 => exact ⟨tmp, popVal_f32_ok q h1 s tmp d⟩
  | f64 q => exact ⟨tmp, popVal_f64_ok q s tmp d⟩
  | char c => exact ⟨tmp, popVal_char_ok c s tmp d⟩
  | string str2 => exact ⟨tmp ++ [str2], popVal_string_ok str2 s tmp d⟩
  | listNil t2 => exact ⟨tmp, popVal_listNil_ok t2 s tmp d⟩
  | listCons h1 h2 =>
    rename_i t2 e es
    cases hw with
    | list hwt =>
      obtain ⟨tmp2, hp⟩ := popN_ok t2 (e :: es) (Conforms.listCons h1 h2) hwt s tmp d
      refine ⟨tmp2, ?_⟩
      simp only [popVal, jsOf, pop_list, popRaw]
      simp only [Option.bind_eq_bind, Option.some_bind]
      rw [jsOfElems_length t2 (e :: es)]
      rw [hp]
      simp
  | tuple hseq =>
    rename_i ts vs
    cases hw with
    | tuple hws =>
      have hlen := jsOfSeq_length ts vs hseq
      obtain ⟨tmp2, hp⟩ := popSeq_ok ts vs hseq hws s tmp d
      refine ⟨tmp2, ?_⟩
      simp only [popVal, jsOf, pop_tuple, popRaw]
      simp only [Option.bind_eq_bind, Option.some_bind]
      rw [show idxList (jsOfSeq ts vs) ts.length = jsOfSeq ts vs from by
        rw [← hlen.1]; exact idxList_eq_self _]
      rw [hp]
      simp
  | record hf =>
    rename_i fs vs
    cases hw with
    | record hnd hwf =>
      obtain ⟨tmp2, hp⟩ := popFields_ok fs vs hf hwf s tmp d
      refine ⟨tmp2, ?_⟩
      simp only [popVal, jsOf, pop_record, popRaw]
      simp only [Option.bind_eq_bind, Option.some_bind]
      rw [fetch_jsOfFields fs vs hf hnd]
      rw [hp]
      simp
  | optNone t2 => exact ⟨tmp, popVal_optNone_ok t2 s tmp d⟩
  | optSome h1 hne2 =>
    rename_i t2 w
    cases hw with
    | option hwt =>
      have hnn := jsOf_not_nullish t2 w h1 hne2
      obtain ⟨tmp2, hp⟩ := popVal_ok t2 w h1 hwt s tmp d
      refine ⟨tmp2, ?_⟩
      simp only [popVal, jsOf, pop_option, popRaw]
      simp [hnn]
      rw [hp]
      simp
  | okNone errT => exact ⟨tmp, popVal_okNone_ok errT s tmp d⟩
  | okSome h1 =>
    rename_i t2 w errT
    cases hw with
    | result hok herr =>
      obtain ⟨tmp2, hp⟩ := popVal_ok t2 w h1 (hok t2 rfl) s tmp d
      refine ⟨tmp2, ?_⟩
      simp only [popVal, jsOf, pop_result, popRaw, Option.bind_eq_bind,
        Option.some_bind, objGet_tag_pair, objGet_val_pair, Option.getD_some,
        reduceIte]
      rw [hp]
      simp
  | errNone okT => exact ⟨tmp, popVal_errNone_ok okT s tmp d⟩
  | errSome h1 =>
    rename_i t2 w okT
    cases hw with
    | result hok herr =>
      obtain ⟨tmp2, hp⟩ := popVal_ok t2 w h1 (herr t2 rfl) s tmp d
      refine ⟨tmp2, ?_⟩
      simp only [popVal, jsOf, pop_result, popRaw, Option.bind_eq_bind,
        Option.some_bind, objGet_tag_pair, objGet_val_pair, Option.getD_some,
        reduceIte]
      rw [hp]
      simp
  | variantNone hget htag =>
    rename_i cs tag nm
    exact ⟨tmp, popVal_variantNone_ok cs tag nm hget htag s tmp d⟩
  | variantSome hget htag h1 =>
    rename_i cs tag nm t2 w
    cases hw with
    | variant hwc =>
      have hwt : Wf t2 := hwc _ (List.getElem?_mem hget) t2 rfl
      obtain ⟨tmp2, hp⟩ := popVal_ok t2 w h1 hwt s tmp d
      refine ⟨tmp2, ?_⟩
      simp only [jsOf, hget, popVal]
      rw [pop_variant_step _ (tag : ℚ) tag (objGet_tag_pair _ _)
        (qToU32_natCast tag htag) s tmp d]
      simp only [objGet_val_pair, Option.getD_some, Option.bind_eq_bind,
        Option.some_bind]
      split
      · rename_i fst t heq
        rw [hget] at heq
        simp only [Option.some_inj, Prod.mk.injEq] at heq
        obtain ⟨heq1, heq2⟩ := heq
        subst heq2
        rw [hp]
        simp
      · rename_i fst heq
        rw [hget] at heq
        simp at heq
      · rename_i heq
        rw [hget] at heq
        simp at heq
  | enum names n h1 h2 => exact ⟨tmp, popVal_enum_ok names n h1 h2 s tmp d⟩
  | flags names n h1 => exact ⟨tmp, popVal_flags_ok names n h1 s tmp d⟩
  | own hh hlt => exact ⟨tmp, popVal_own_ok hh hlt s tmp d⟩
  | borrow hh hlt => exact ⟨tmp, popVal_borrow_ok hh hlt s tmp d⟩
  | future hh hlt => exact ⟨tmp, popVal_future_ok hh hlt s tmp d⟩
  | stream hh hlt => exact ⟨tmp, popVal_stream_ok hh hlt s tmp d⟩
termination_by sizeOf v

/-- popN recovers the elements of a conforming list from their encodings. -/
theorem popN_ok (t : WitTy) (es : List HostVal)
    (h : Conforms (.list t) (.list es)) (hw : Wf t)
    (s : List JSVal) (tmp : List String) (d : List (Nat × LayoutM)) :
    ∃ tmp2, popNwith (fun c => popVal t c) es.length ⟨jsOfElems t es ++ s, tmp, d⟩
      = some (es, ⟨s, tmp2, d⟩) := by
  cases h with
  | listNil _ => exact ⟨tmp, by simp [popNwith, jsOfElems]⟩
  | listCons h1 h2 =>
    rename_i e es2
    obtain ⟨tmp2, hp1⟩ := popVal_ok t e h1 hw (jsOfElems t es2 ++ s) tmp d
    obtain ⟨tmp3, hp2⟩ := popN_ok t es2 h2 hw s tmp2 d
    refine ⟨tmp3, ?_⟩
    simp only [List.length_cons, popNwith, jsOfElems, List.cons_append]
    rw [hp1]
    simp only [Option.bind_eq_bind, Option.some_bind]
    rw [hp2]
    simp
termination_by sizeOf es

/-- popSeq recovers the components of a conforming tuple from their
encodings. -/
theorem popSeq_ok (ts : List WitTy) (vs : List HostVal)
    (h : ConformsSeq ts vs) (hw : ∀ t2 ∈ ts, Wf t2)
    (s : List JSVal) (tmp : List String) (d : List (Nat × LayoutM)) :
    ∃ tmp2, popSeq ts ⟨jsOfSeq ts vs ++ s, tmp, d⟩ = some (vs, ⟨s, tmp2, d⟩) := by
  cases h with
  | nil => exact ⟨tmp, by simp [popSeq, jsOfSeq]⟩
  | cons h1 h2 =>
    rename_i t2 w ts2 vs2
    obtain ⟨tmp2, hp1⟩ := popVal_ok t2 w h1 (hw t2 (by simp)) (jsOfSeq ts2 vs2 ++ s) tmp d
    obtain ⟨tmp3, hp2⟩ := popSeq_ok ts2 vs2 h2 (fun x hx => hw x (by simp [hx])) s tmp2 d
    refine ⟨tmp3, ?_⟩
    simp only [popSeq, jsOfSeq, List.cons_append]
    rw [hp1]
    simp only [Option.bind_eq_bind, Option.some_bind]
    rw [hp2]
    simp
termination_by sizeOf vs

/-- popFields recovers the field values of a conforming record from their
encodings. -/
theorem popFields_ok (fs : List (String × WitTy)) (vs : List HostVal)
    (h : ConformsFields fs vs) (hw : ∀ p ∈ fs, Wf p.2)
    (s : List JSVal) (tmp : List String) (d : List (Nat × LayoutM)) :
    ∃ tmp2, popFieldVals fs ⟨(jsOfFields fs vs).map (fun p => p.2) ++ s, tmp, d⟩
      = some (vs, ⟨s, tmp2, d⟩) := by
  cases h with
  | nil => exact ⟨tmp, by simp [popFieldVals, jsOfFields]⟩
  | cons h1 h2 =>
    rename_i t2 w fs2 vs2 nm
    obtain ⟨tmp2, hp1⟩ := popVal_ok t2 w h1 (hw (nm, t2) (by simp))
      ((jsOfFields fs2 vs2).map (fun p => p.2) ++ s) tmp d
    obtain ⟨tmp3, hp2⟩ := popFields_ok fs2 vs2 h2 (fun p hp => hw p (by simp [hp])) s tmp2 d
    refine ⟨tmp3, ?_⟩
    simp only [popFieldVals, jsOfFields, List.map_cons, List.cons_append]
    rw [hp1]
    simp only [Option.bind_eq_bind, Option.some_bind]
    rw [hp2]
    simp
termination_by sizeOf vs

end

/-! The init entry point (crates/runtime/src/lib.rs `init_js`). -/

/-- initAlreadyMsg is the double-initialization error string of `init_js`. -/
def initAlreadyMsg : String := "JavaScript already evaluated"

/-- initEvalErrPrefix is the prefix `init_js` puts before the engine
diagnostic. -/
def initEvalErrPrefix : String := "Failed to evaluate JavaScript: "

/-- init_js models the `init_js` entry point as a transition on the
one-shot JS_EVALUATED flag: `swap(true)` sets the flag first and returns
the already-evaluated error when it was set; otherwise the engine
evaluates the source (modelled by its outcome, carrying the
debug-formatted engine diagnostic on failure) and an evaluation failure is
propagated with the prefix (the flag stays set either way). -/
def init_js (evaluated : Bool) (evalResult : Except String Unit) :
    Bool × Except String Unit :=
  if evaluated then (true, .error initAlreadyMsg)
  else
    match evalResult with
    | .ok () => (true, .ok ())
    | .error e => (true, .error (initEvalErrPrefix ++ e))

/-! Deferred deallocations (C4). -/

/-- regAll registers a sequence of deferred deallocations on a context. -/
def regAll (cx : QjsCallContext) (entries : List (Nat × LayoutM)) : QjsCallContext :=
  entries.foldl (fun c e => defer_deallocate c e.1 e.2) cx

theorem regAll_deferred (entries : List (Nat × LayoutM)) :
    ∀ cx : QjsCallContext,
      (regAll cx entries).deferred_deallocs = cx.deferred_deallocs ++ entries := by
  induction entries with
  | nil => intro cx; simp [regAll]
  | cons e tl ih =>
    intro cx
    have := ih (defer_deallocate cx e.1 e.2)
    simp only [regAll, List.foldl_cons] at this ⊢
    rw [this]
    simp [defer_deallocate]

/-! The adapter list-building loop (C3). -/

/-- listAppendAll pushes each element value then runs `list_append`.
Modelled from the spec (section 4.D): pushing a list creates an empty
array, then each list-append pops the top element and appends it. -/
def listAppendAll : List JSVal → QjsCallContext → Option QjsCallContext
  | [], cx => some cx
  | v :: vs, cx => do
    let cx1 ← list_append (pushRaw cx v)
    listAppendAll vs cx1

/-- listBuild is `push_list` followed by one push-and-append per element. -/
def listBuild (vs : List JSVal) (cx : QjsCallContext) : Option QjsCallContext :=
  listAppendAll vs (push_list cx)

theorem listAppendAll_ok (vs : List JSVal) :
    ∀ (acc s : List JSVal) (tmp : List String) (d : List (Nat × LayoutM)),
      listAppendAll vs ⟨.arr acc :: s, tmp, d⟩
        = some ⟨.arr (acc ++ vs) :: s, tmp, d⟩ := by
  induction vs with
  | nil => intro acc s tmp d; simp [listAppendAll]
  | cons v vs ih =>
    intro acc s tmp d
    simp only [listAppendAll, pushRaw, list_append, Option.bind_eq_bind,
      Option.some_bind]
    rw [ih (acc ++ [v]) s tmp d]
    simp

/-! Claim theorems C2, C3, C4, C5, C9, C10. -/

/-- C2: push_result and push_variant pop a payload value off the stack if
and only if the active arm (the ok/err arm selected by is_err, or the case
selected by the tag) declares a payload type; with no payload the
constructed object carries only the tag and the stack is not consumed. -/
theorem spec_c2_payload_iff (okT errT : Option WitTy) (is_err : Bool)
    (cases2 : List (String × Option WitTy)) (tag : Nat) (p : JSVal)
    (s : List JSVal) (tmp : List String) (d : List (Nat × LayoutM)) :
    (push_result okT errT is_err ⟨p :: s, tmp, d⟩
      = some (if (if is_err then errT.isSome else okT.isSome)
          then ⟨.obj [(("tag"), .str (if is_err then ("err") else ("ok"))),
            (("val"), p)] :: s, tmp, d⟩
          else ⟨.obj [(("tag"), .str (if is_err then ("err") else ("ok")))]
            :: p :: s, tmp, d⟩))
    ∧ (push_variant cases2 tag ⟨p :: s, tmp, d⟩
      = some (if (cases2[tag]?.map (fun c => c.2.isSome)).getD false
          then ⟨.obj [(("tag"), .num (tag : ℚ)), (("val"), p)] :: s, tmp, d⟩
          else ⟨.obj [(("tag"), .num (tag : ℚ))] :: p :: s, tmp, d⟩)) := by
  constructor
  · cases is_err <;> cases okT <;> cases errT <;> simp [push_result]
  · cases hb : (cases2[tag]?.map (fun c => c.2.isSome)).getD false <;>
      simp [push_variant, hb]

/-- C3: pop_list pushes all n array elements in reverse index order
(element n-1 first, element 0 on top: with the head of the list as top of
stack, the stack becomes the element list itself) and returns n; and a
list built by push_list followed by one push-and-append per element
produces a guest array holding exactly the pushed elements in push order,
so index i holds the i-th element pushed. -/
theorem spec_c3_list_order (es vs s : List JSVal) (tmp : List String)
    (d : List (Nat × LayoutM)) (cx : QjsCallContext) :
    pop_list ⟨.arr es :: s, tmp, d⟩ = some (es.length, ⟨es ++ s, tmp, d⟩)
    ∧ listBuild vs cx
      = some ⟨.arr vs :: cx.stack, cx.temp_strings, cx.deferred_deallocs⟩ := by
  constructor
  · simp [pop_list, popRaw]
  · obtain ⟨s2, tmp2, d2⟩ := cx
    simp only [listBuild, push_list, pushRaw]
    rw [listAppendAll_ok vs [] s2 tmp2 d2]
    simp

/-- C4: destroying a call context deallocates every (pointer, layout)
entry registered via defer_deallocate exactly once, in insertion order
(the drop trace is exactly the registration sequence; Rust runs Drop on
the success and failure paths alike). -/
theorem spec_c4_deferred_exactly_once (cx : QjsCallContext)
    (entries : List (Nat × LayoutM)) :
    dropDeallocTrace (regAll cx entries) = cx.deferred_deallocs ++ entries
    ∧ (∀ e2 : Nat × LayoutM,
        (dropDeallocTrace (regAll emptyCx entries)).count e2 = entries.count e2) := by
  constructor
  · exact regAll_deferred entries cx
  · intro e2
    rw [show dropDeallocTrace (regAll emptyCx entries) = entries from by
      rw [dropDeallocTrace, regAll_deferred entries emptyCx]; simp [emptyCx]]

/-- C5 counterexample: the double-init error string produced by the code is
the exact string JavaScript already evaluated, not the claimed exact
string already evaluated. -/
theorem spec_c5_counterexample :
    (init_js true (.ok ())).2 = .error ("JavaScript already evaluated")
    ∧ ("JavaScript already evaluated" : String) ≠ ("already evaluated" : String) := by
  constructor
  · rfl
  · decide

/-- C5 (amended): init transitions the one-shot flag from false to true;
when the flag was already set it returns the error JavaScript already
evaluated; otherwise it evaluates the source and propagates an evaluation
failure as an error that appends the engine diagnostic to the prefix
Failed to evaluate JavaScript: (so the Err contains the diagnostic). -/
theorem spec_c5_init_transitions (r : Except String Unit) (e : String) :
    init_js true r = (true, .error initAlreadyMsg)
    ∧ init_js false (.ok ()) = (true, .ok ())
    ∧ init_js false (.error e) = (true, .error (initEvalErrPrefix ++ e))
    ∧ (∃ pre, initEvalErrPrefix ++ e = pre ++ e) := by
  refine ⟨?_, rfl, rfl, ⟨initEvalErrPrefix, rfl⟩⟩
  simp [init_js]

/-- C9: pop_result yields discriminant 0 exactly when the object's tag
property is the string ok, any other tag string yields 1, and a missing
val property is tolerated by pushing undefined as the payload. -/
theorem spec_c9_pop_result (fs2 : List (String × JSVal)) (tg : String)
    (s : List JSVal) (tmp : List String) (d : List (Nat × LayoutM))
    (hget : objGet fs2 ("tag") = some (.str tg)) :
    pop_result ⟨.obj fs2 :: s, tmp, d⟩
      = some ((if tg = ("ok") then 0 else 1),
          ⟨((objGet fs2 ("val")).getD .undef) :: s, tmp, d⟩)
    ∧ ((if tg = ("ok") then (0 : Nat) else 1) = 0 ↔ tg = ("ok"))
    ∧ (objGet fs2 ("val") = none →
        pop_result ⟨.obj fs2 :: s, tmp, d⟩
          = some ((if tg = ("ok") then 0 else 1), ⟨.undef :: s, tmp, d⟩)) := by
  refine ⟨?_, ?_, ?_⟩
  · simp [pop_result, popRaw, hget]
  · by_cases h2 : tg = ("ok") <;> simp [h2]
  · intro hnone
    simp [pop_result, popRaw, hget, hnone]

/-- spec_c9_pop_result_witness instantiates C9 at a concrete object whose
tag is the string maybe (neither ok nor err): the discriminant is 1 and
the missing val pushes undefined. -/
theorem spec_c9_pop_result_witness :
    pop_result ⟨.obj [(("tag"), .str ("maybe"))] :: [], [], []⟩
      = some ((if ("maybe" : String) = ("ok") then 0 else 1),
          ⟨((objGet [(("tag"), .str ("maybe"))] ("val")).getD .undef) :: [], [], []⟩)
    ∧ ((if ("maybe" : String) = ("ok") then (0 : Nat) else 1) = 0
        ↔ ("maybe" : String) = ("ok"))
    ∧ (objGet [(("tag"), .str ("maybe"))] ("val") = none →
        pop_result ⟨.obj [(("tag"), .str ("maybe"))] :: [], [], []⟩
          = some ((if ("maybe" : String) = ("ok") then 0 else 1),
              ⟨.undef :: [], [], []⟩)) :=
  spec_c9_pop_result [(("tag"), .str ("maybe"))] ("maybe") [] [] []
    (by simp [objGet])

/-- C10: a first init whose JavaScript evaluation fails still leaves the
evaluated flag set (it is flipped before evaluation and never rolled
back), so every subsequent init call returns the already-evaluated error:
a failed init is not retryable. -/
theorem spec_c10_failed_init_sticky (e : String) (r : Except String Unit) :
    (init_js false (.error e)).1 = true
    ∧ init_js false (.error e) = (true, .error (initEvalErrPrefix ++ e))
    ∧ init_js (init_js false (.error e)).1 r = (true, .error initAlreadyMsg) := by
  refine ⟨?_, ?_, ?_⟩ <;> simp [init_js]

/-! Enum and flags interface objects (the enum/flags loops of
`create_interface_object` in crates/runtime/src/lib.rs). -/

/-- natKey is the JS property key an integer index becomes (JS object
integer keys are their decimal strings). -/
def natKey (i : Nat) : String := Nat.repr i

/-- buildEnumObjAux is the enum loop of `create_interface_object`: for
case index i with kebab name nm, set the upper-camel-case name to the
index and the numeric index key to the kebab name. -/
def buildEnumObjAux : Nat → List String → List (String × JSVal) → List (String × JSVal)
  | _, [], o => o
  | i, nm :: rest, o =>
    buildEnumObjAux (i + 1) rest
      (objSet (objSet o (upperCamel nm) (.num (i : ℚ))) (natKey i) (.str nm))

/-- buildEnumObj is the enum object installed on the interface object. -/
def buildEnumObj (names : List String) : List (String × JSVal) :=
  buildEnumObjAux 0 names []

/-- enumPairs is the flat (key, value) list the enum loop produces when
all keys are fresh. -/
def enumPairs : Nat → List String → List (String × JSVal)
  | _, [] => []
  | i, nm :: rest =>
    (upperCamel nm, .num (i : ℚ)) :: (natKey i, .str nm) :: enumPairs (i + 1) rest

/-- enumKeys lists the property keys the enum loop writes, in order. -/
def enumKeys : Nat → List String → List String
  | _, [] => []
  | i, nm :: rest => upperCamel nm :: natKey i :: enumKeys (i + 1) rest

/-- shl1u32 is `1u32 << i`, which panics for a shift amount of 32 or
more. -/
def shl1u32 (i : Nat) : Option Nat := if i < 32 then some (2 ^ i) else none

/-- buildFlagsObjAux is the flags loop of `create_interface_object`: for
flag index i with kebab name nm, set the upper-camel-case name to
`1u32 << i`. -/
def buildFlagsObjAux : Nat → List String → List (String × JSVal) →
    Option (List (String × JSVal))
  | _, [], o => some o
  | i, nm :: rest, o => do
    let v ← shl1u32 i
    buildFlagsObjAux (i + 1) rest (objSet o (upperCamel nm) (.num (v : ℚ)))

/-- buildFlagsObj is the flags object installed on the interface object. -/
def buildFlagsObj (names : List String) : Option (List (String × JSVal)) :=
  buildFlagsObjAux 0 names []

/-- flagsPairs is the flat (key, value) list the flags loop produces. -/
def flagsPairs : Nat → List String → List (String × JSVal)
  | _, [] => []
  | i, nm :: rest => (upperCamel nm, .num ((2 ^ i : Nat) : ℚ)) :: flagsPairs (i + 1) rest

theorem buildEnumObjAux_eq (names : List String) :
    ∀ (i : Nat) (o : List (String × JSVal)),
      (∀ p ∈ o, p.1 ∉ enumKeys i names) →
      (enumKeys i names).Nodup →
      buildEnumObjAux i names o = o ++ enumPairs i names := by
  induction names with
  | nil => intro i o _ _; simp [buildEnumObjAux, enumPairs]
  | cons nm rest ih =>
    intro i o hdisj hnd
    simp only [enumKeys, List.nodup_cons, List.mem_cons, not_or] at hnd
    obtain ⟨⟨hCK, hCtail⟩, hKtail, hnd2⟩ := hnd
    simp only [buildEnumObjAux]
    rw [objSet_fresh o (upperCamel nm) _ (fun p hp => by
      have := hdisj p hp
      simp only [enumKeys, List.mem_cons, not_or] at this
      exact this.1)]
    rw [objSet_fresh _ (natKey i) _ (fun p hp => by
      rcases List.mem_append.mp hp with hp2 | hp2
      · have := hdisj p hp2
        simp only [enumKeys, List.mem_cons, not_or] at this
        exact this.2.1
      · have hp3 : p = (upperCamel nm, JSVal.num (i : ℚ)) := by simpa using hp2
        subst hp3
        exact hCK)]
    rw [ih (i + 1) _ (fun p hp => by
      rcases List.mem_append.mp hp with hp2 | hp2
      · rcases List.mem_append.mp hp2 with hp3 | hp3
        · have := hdisj p hp3
          simp only [enumKeys, List.mem_cons, not_or] at this
          exact this.2.2
        · have hp4 : p = (upperCamel nm, JSVal.num (i : ℚ)) := by simpa using hp3
          subst hp4
          exact hCtail
      · have hp3 : p = (natKey i, JSVal.str nm) := by simpa using hp2
        subst hp3
        exact hKtail) hnd2]
    simp [enumPairs]

theorem camel_natKey_mem_enumKeys (names : List String) :
    ∀ (i j : Nat) (hj : j < names.length),
      upperCamel (names.get ⟨j, hj⟩) ∈ enumKeys i names
      ∧ natKey (i + j) ∈ enumKeys i names := by
  induction names with
  | nil => intro i j hj; exact absurd hj (by simp)
  | cons nm rest ih =>
    intro i j hj
    cases j with
    | zero => constructor <;> simp [enumKeys]
    | succ j2 =>
      have hj2 : j2 < rest.length := Nat.lt_of_succ_lt_succ (by simpa using hj)
      have hm := ih (i + 1) j2 hj2
      constructor
      · simp only [List.get_cons_succ, enumKeys, List.mem_cons]
        exact Or.inr (Or.inr hm.1)
      · simp only [enumKeys, List.mem_cons]
        refine Or.inr (Or.inr ?_)
        rw [show i + (j2 + 1) = (i + 1) + j2 from by omega]
        exact hm.2

theorem enumPairs_lookup (names : List String) :
    ∀ (i : Nat), (enumKeys i names).Nodup →
      ∀ (j : Nat) (hj : j < names.length),
        objGet (enumPairs i names) (upperCamel (names.get ⟨j, hj⟩))
          = some (.num ((i + j : Nat) : ℚ))
        ∧ objGet (enumPairs i names) (natKey (i + j))
          = some (.str (names.get ⟨j, hj⟩)) := by
  induction names with
  | nil => intro i _ j hj; exact absurd hj (by simp)
  | cons nm rest ih =>
    intro i hnd j hj
    simp only [enumKeys, List.nodup_cons, List.mem_cons, not_or] at hnd
    obtain ⟨⟨hCK, hCtail⟩, hKtail, hnd2⟩ := hnd
    cases j with
    | zero =>
      constructor
      · simp [enumPairs, objGet]
      · have hCK2 : upperCamel nm ≠ natKey i := hCK
        simp [enumPairs, objGet, hCK2]
    | succ j2 =>
      have hj2 : j2 < rest.length := Nat.lt_of_succ_lt_succ (by simpa using hj)
      have hm := camel_natKey_mem_enumKeys rest (i + 1) j2 hj2
      have hih := ih (i + 1) hnd2 j2 hj2
      constructor
      · have hne1 : upperCamel nm ≠ upperCamel (rest.get ⟨j2, hj2⟩) :=
          fun hcon => hCtail (hcon ▸ hm.1)
        have hne2 : natKey i ≠ upperCamel (rest.get ⟨j2, hj2⟩) :=
          fun hcon => hKtail (hcon ▸ hm.1)
        simp only [List.get_cons_succ, enumPairs, objGet, if_neg hne1, if_neg hne2]
        rw [show i + (j2 + 1) = (i + 1) + j2 from by omega]
        exact hih.1
      · have hmk : natKey ((i + 1) + j2) ∈ enumKeys (i + 1) rest := hm.2
        have hne1 : upperCamel nm ≠ natKey (i + (j2 + 1)) := fun hcon => by
          rw [show i + (j2 + 1) = (i + 1) + j2 from by omega] at hcon
          exact hCtail (hcon ▸ hmk)
        have hne2 : natKey i ≠ natKey (i + (j2 + 1)) := fun hcon => by
          rw [show i + (j2 + 1) = (i + 1) + j2 from by omega] at hcon
          exact hKtail (hcon ▸ hmk)
        simp only [List.get_cons_succ, enumPairs, objGet, if_neg hne1, if_neg hne2]
        rw [show i + (j2 + 1) = (i + 1) + j2 from by omega]
        exact hih.2

theorem camels_sublist_enumKeys (names : List String) :
    ∀ i : Nat, (names.map upperCamel).Sublist (enumKeys i names) := by
  induction names with
  | nil => intro i; simp
  | cons nm rest ih =>
    intro i
    simp only [List.map_cons, enumKeys]
    exact List.Sublist.cons₂ _ (List.Sublist.cons _ (ih (i + 1)))

theorem buildFlagsObjAux_eq (fnames : List String) :
    ∀ (i : Nat) (o : List (String × JSVal)),
      i + fnames.length ≤ 32 →
      (∀ p ∈ o, p.1 ∉ fnames.map upperCamel) →
      (fnames.map upperCamel).Nodup →
      buildFlagsObjAux i fnames o = some (o ++ flagsPairs i fnames) := by
  induction fnames with
  | nil => intro i o _ _ _; simp [buildFlagsObjAux, flagsPairs]
  | cons nm rest ih =>
    intro i o hlen hdisj hnd
    simp only [List.map_cons, List.nodup_cons] at hnd
    simp only [buildFlagsObjAux, shl1u32]
    rw [if_pos (by simp at hlen; omega : i < 32)]
    simp only [Option.bind_eq_bind, Option.some_bind]
    rw [objSet_fresh o (upperCamel nm) _ (fun p hp => by
      have := hdisj p hp
      simp only [List.map_cons, List.mem_cons, not_or] at this
      exact this.1)]
    rw [ih (i + 1) _ (by simp at hlen ⊢; omega) (fun p hp => by
      rcases List.mem_append.mp hp with hp2 | hp2
      · have := hdisj p hp2
        simp only [List.map_cons, List.mem_cons, not_or] at this
        exact this.2
      · have hp3 : p = (upperCamel nm, JSVal.num ((2 ^ i : Nat) : ℚ)) := by simpa using hp2
        subst hp3
        exact hnd.1) hnd.2]
    simp [flagsPairs]

theorem flagsPairs_lookup (fnames : List String) :
    ∀ (i : Nat), (fnames.map upperCamel).Nodup →
      ∀ (j : Nat) (hj : j < fnames.length),
        objGet (flagsPairs i fnames) (upperCamel (fnames.get ⟨j, hj⟩))
          = some (.num ((2 ^ (i + j) : Nat) : ℚ)) := by
  induction fnames with
  | nil => intro i _ j hj; exact absurd hj (by simp)
  | cons nm rest ih =>
    intro i hnd j hj
    simp only [List.map_cons, List.nodup_cons] at hnd
    cases j with
    | zero => simp [flagsPairs, objGet]
    | succ j2 =>
      have hj2 : j2 < rest.length := Nat.lt_of_succ_lt_succ (by simpa using hj)
      have hmem : upperCamel (rest.get ⟨j2, hj2⟩) ∈ rest.map upperCamel :=
        List.mem_map.mpr ⟨rest.get ⟨j2, hj2⟩, List.get_mem rest j2 hj2, rfl⟩
      have hne : upperCamel nm ≠ upperCamel (rest.get ⟨j2, hj2⟩) :=
        fun hcon => hnd.1 (hcon ▸ hmem)
      simp only [List.get_cons_succ, flagsPairs, objGet, if_neg hne]
      rw [show i + (j2 + 1) = (i + 1) + j2 from by omega]
      exact ih (i + 1) hnd.2 j2 hj2

/-- C8: on the enum object, every declared case's upper-camel-case name is
bound to its index and every index key is bound back to the declared case
name (so the name-to-index mapping covers the whole declared case set, in
both directions), and that mapping is injective; on the flags object, the
flag at position i is bound under its upper-camel-case name to 2 ^ i, the
value of `1u32 << i` (the shift does not overflow because a flags type has
at most 32 flags). -/
theorem spec_c8_interface_enum_flags (names fnames : List String)
    (hnd : (enumKeys 0 names).Nodup)
    (hfnd : (fnames.map upperCamel).Nodup)
    (hflen : fnames.length ≤ 32) :
    (∀ (j : Nat) (hj : j < names.length),
      objGet (buildEnumObj names) (upperCamel (names.get ⟨j, hj⟩))
        = some (.num ((j : Nat) : ℚ))
      ∧ objGet (buildEnumObj names) (natKey j)
        = some (.str (names.get ⟨j, hj⟩)))
    ∧ (∀ (j1 j2 : Nat) (hj1 : j1 < names.length) (hj2 : j2 < names.length),
        upperCamel (names.get ⟨j1, hj1⟩) = upperCamel (names.get ⟨j2, hj2⟩) →
        j1 = j2)
    ∧ (∃ fo, buildFlagsObj fnames = some fo
        ∧ ∀ (j : Nat) (hj : j < fnames.length),
            objGet fo (upperCamel (fnames.get ⟨j, hj⟩))
              = some (.num ((2 ^ j : Nat) : ℚ))) := by
  have hobj : buildEnumObj names = enumPairs 0 names := by
    rw [buildEnumObj, buildEnumObjAux_eq names 0 [] (by simp) hnd]
    simp
  have hmapnd : (names.map upperCamel).Nodup :=
    List.Nodup.sublist (camels_sublist_enumKeys names 0) hnd
  refine ⟨?_, ?_, ?_⟩
  · intro j hj
    have h := enumPairs_lookup names 0 hnd j hj
    rw [hobj]
    simpa using h
  · intro j1 j2 hj1 hj2 heq
    have hl1 : j1 < (names.map upperCamel).length := by simpa using hj1
    have hl2 : j2 < (names.map upperCamel).length := by simpa using hj2
    have hg : (names.map upperCamel).get ⟨j1, hl1⟩
        = (names.map upperCamel).get ⟨j2, hl2⟩ := by
      rw [List.get_eq_getElem, List.get_eq_getElem, List.getElem_map,
        List.getElem_map]
      exact heq
    have hfin := (List.Nodup.get_inj_iff hmapnd).mp hg
    simpa using congrArg Fin.val hfin
  · refine ⟨flagsPairs 0 fnames, ?_, ?_⟩
    · rw [buildFlagsObj,
        buildFlagsObjAux_eq fnames 0 [] (by omega) (by simp) hfnd]
      simp
    · intro j hj
      have h := flagsPairs_lookup fnames 0 hfnd j hj
      simpa using h

/-- Witness for C8 at the concrete enum {red, green-blue} and flags
{read, write}: the second case and second flag are looked up. -/
theorem spec_c8_interface_enum_flags_witness :
    (enumKeys 0 [("red"), ("green-blue")]).Nodup
    ∧ (([("read"), ("write")].map upperCamel).Nodup)
    ∧ ([("read"), ("write")] : List String).length ≤ 32
    ∧ objGet (buildEnumObj [("red"), ("green-blue")])
        (upperCamel ("green-blue")) = some (.num ((1 : Nat) : ℚ))
    ∧ objGet (buildEnumObj [("red"), ("green-blue")]) (natKey 1)
        = some (.str ("green-blue"))
    ∧ ∃ fo, buildFlagsObj [("read"), ("write")] = some fo
        ∧ objGet fo (upperCamel ("write")) = some (.num ((2 ^ 1 : Nat) : ℚ)) := by
  have h := spec_c8_interface_enum_flags [("red"), ("green-blue")]
    [("read"), ("write")] (by decide) (by decide) (by decide)
  refine ⟨by decide, by decide, by decide, ?_, ?_, ?_⟩
  · exact (h.1 1 (by decide)).1
  · exact (h.1 1 (by decide)).2
  · obtain ⟨fo, hfo, hlook⟩ := h.2.2
    exact ⟨fo, hfo, hlook 1 (by decide)⟩

/-- Counterexample to C1 as stated: the u64 value 2 ^ 53 + 1 conforms to
u64 in the unrestricted sense, but push_u64 stores it as an f64
(round-to-nearest-even gives 2 ^ 53) and pop_u64 reads back 2 ^ 53, so
the round trip does not return the same value. -/
theorem spec_c1_counterexample :
    (pushVal .u64 (.uint 9007199254740993) emptyCx).bind (popVal .u64)
      = some (.uint 9007199254740992, emptyCx)
    ∧ (9007199254740993 : Nat) ≠ 9007199254740992 := by
  constructor
  · have hs : sig53 9007199254740993 = 9007199254740992 := by decide
    have hq : qToU64 (f64ofNat 9007199254740993) = some 9007199254740992 := by
      rw [show f64ofNat 9007199254740993 = ((9007199254740992 : Nat) : ℚ) from by
        unfold f64ofNat; rw [hs]]
      exact qToU64_natCast 9007199254740992 (by norm_num)
    show (some (push_u64 9007199254740993 emptyCx)).bind (popVal .u64) = _
    simp only [push_u64, pushRaw, emptyCx, Option.bind_eq_bind, Option.some_bind]
    simp only [popVal]
    rw [pop_u64_step _ _ hq [] [] []]
    rfl
  · decide

/-- C1 (amended): for every well-formed WIT type t and every host value v
conforming to t — where conformance additionally requires that numeric
values survive the JS-number representation: u64/s64 magnitudes below
2 ^ 53, f32 values exactly representable in binary32, enum/future/stream
indices in i32 range after the `as i32` casts, handle/flags/variant
indices in u32 range, and option payloads distinguishable from the none
encoding — popping after pushing returns the same value and leaves the
stack and the deferred-deallocation list of the context unchanged. -/
theorem spec_c1_roundtrip (t : WitTy) (v : HostVal) (h : Conforms t v)
    (hw : Wf t) (cx : QjsCallContext) :
    ∃ cx2, (pushVal t v cx).bind (popVal t) = some (v, cx2)
      ∧ cx2.stack = cx.stack
      ∧ cx2.deferred_deallocs = cx.deferred_deallocs := by
  obtain ⟨s, tmp, d⟩ := cx
  obtain ⟨tmp2, hp⟩ := popVal_ok t v h hw s tmp d
  refine ⟨⟨s, tmp2, d⟩, ?_, rfl, rfl⟩
  rw [pushVal_ok t v h hw s tmp d]
  simp only [Option.bind_eq_bind, Option.some_bind]
  exact hp

/-- Witness for C1 at a concrete record type with a u32 field and a string
field, starting from the empty call context. -/
theorem spec_c1_roundtrip_witness :
    Conforms (.record [(("a-b"), .u32), (("note"), .string)])
        (.record [.uint 7, .str ("hi")])
    ∧ Wf (.record [(("a-b"), .u32), (("note"), .string)])
    ∧ ∃ cx2, (pushVal (.record [(("a-b"), .u32), (("note"), .string)])
          (.record [.uint 7, .str ("hi")]) emptyCx).bind
          (popVal (.record [(("a-b"), .u32), (("note"), .string)]))
        = some (.record [.uint 7, .str ("hi")], cx2)
      ∧ cx2.stack = emptyCx.stack
      ∧ cx2.deferred_deallocs = emptyCx.deferred_deallocs := by
  have hc : Conforms (.record [(("a-b"), .u32), (("note"), .string)])
      (.record [.uint 7, .str ("hi")]) :=
    .record (.cons (.u32 7 (by norm_num)) (.cons (.string ("hi")) .nil))
  have hw : Wf (.record [(("a-b"), .u32), (("note"), .string)]) := by
    refine .record (by decide) ?_
    intro p hp
    simp only [List.mem_cons, List.not_mem_nil, or_false] at hp
    rcases hp with h | h <;> subst h
    · exact .u32
    · exact .string
  exact ⟨hc, hw, spec_c1_roundtrip _ _ hc hw emptyCx⟩

/-! WASI import stubbing (src/src/stubwasi.rs). The filtering of the
world's imports, the empty-set early return and the stub world whose
exports are the collected WASI imports are translated from
`stub_wasi_imports` and `make_stub_component`. The wasm tooling those
functions call (`decode`, `dummy_module`, `plug`, the wac composition
graph) lives in external crates, not in this repository. -/

/-- CompVal models a decoded component: its raw bytes and the qualified
names of its world's imports. -/
structure CompVal where
  bytes : List Nat
  imports : List String

/-- strStarts tests whether the first character list is an initial
segment of the second. -/
def strStarts : List Char → List Char → Bool
  | [], _ => true
  | _ :: _, [] => false
  | a :: as, b :: bs => a == b && strStarts as bs

/-- isWasi tests whether a qualified world-key name begins with "wasi:",
as `resolve.name_world_key(key).starts_with("wasi:")` does. -/
def isWasi (s : String) : Bool := strStarts ("wasi:").data s.data

/-- wasiImports is the filtered subset of world imports `stub_wasi_imports`
collects. -/
def wasiImports (c : CompVal) : List String :=
  c.imports.filter (fun n => isWasi n)

/-- StubWorld models the world of the synthesized stub component. -/
structure StubWorld where
  imports : List String
  exports : List String

/-- makeStubWorld builds the stub component's world as
`make_stub_component` allocates it: its exports are the collected WASI
imports and its import list is empty
(`World { imports: IndexMap::new(), exports: wasi_imports.clone(), .. }`). -/
def makeStubWorld (wasi : List String) : StubWorld :=
  { imports := [], exports := wasi }

/-- StubResult is the outcome of stubbing: either the input bytes
unchanged, or a composed component with the given residual imports in
which the listed stubbed functions trap. Modelled from the spec:
composition "plugs the stub's exports into the original's imports", so
the residual imports are the non-WASI ones, and a call into a plugged
WASI import reaches the dummy core module "whose function bodies trap
on entry". -/
inductive StubResult where
  | unchanged (bytes : List Nat)
  | composed (imports : List String) (trapped : List String)
deriving DecidableEq

/-- stub_wasi_imports models `stub_wasi_imports`: collect the imports
whose qualified name starts with "wasi:"; if there are none, return the
input unchanged (`Ok(component.to_vec())`); otherwise plug the stub
component, whose exports are exactly that subset, into the original. -/
def stub_wasi_imports (c : CompVal) : StubResult :=
  if (wasiImports c).isEmpty then .unchanged c.bytes
  else
    .composed (c.imports.filter (fun n => !isWasi n))
      ((makeStubWorld (wasiImports c)).exports)

/-- outImports lists the import names of the component the stubbing
returns. -/
def outImports (c : CompVal) : List String :=
  match stub_wasi_imports c with
  | .unchanged _ => c.imports
  | .composed imps _ => imps

/-- trapsIn tests whether calling the named function in the returned
component traps through a stub export. -/
def trapsIn (c : CompVal) (n : String) : Bool :=
  match stub_wasi_imports c with
  | .unchanged _ => false
  | .composed _ tr => decide (n ∈ tr)

/-- C6: when no import of the decoded world has a qualified name
beginning with "wasi:", stub_wasi_imports returns the input bytes
unchanged. -/
theorem spec_c6_no_wasi_identity (c : CompVal)
    (h : ∀ n ∈ c.imports, isWasi n = false) :
    stub_wasi_imports c = .unchanged c.bytes := by
  have hf : wasiImports c = [] := by
    simp only [wasiImports, List.filter_eq_nil_iff]
    intro n hn
    simp [h n hn]
  simp [stub_wasi_imports, hf]

/-- Witness for C6 at a concrete component with two non-WASI imports. -/
theorem spec_c6_no_wasi_identity_witness :
    (∀ n ∈ ([("a:b/c"), ("d:e/f")] : List String), isWasi n = false)
    ∧ stub_wasi_imports ⟨[0, 1, 2], [("a:b/c"), ("d:e/f")]⟩
        = .unchanged [0, 1, 2] :=
  ⟨by decide,
    spec_c6_no_wasi_identity ⟨[0, 1, 2], [("a:b/c"), ("d:e/f")]⟩ (by decide)⟩

/-- C7: whatever component stub_wasi_imports returns, its import set
contains no name starting with "wasi:", and every original import that
was a WASI import traps through a stub export. -/
theorem spec_c7_output_hermetic (c : CompVal) :
    ((outImports c).all (fun n => !isWasi n))
    ∧ ∀ n ∈ c.imports, isWasi n = true → trapsIn c n = true := by
  by_cases he : (wasiImports c).isEmpty
  · have hnil : wasiImports c = [] := by simpa using he
    have hnone : ∀ n ∈ c.imports, isWasi n = false := by
      intro n hn
      by_contra hcon
      have hmem : n ∈ wasiImports c :=
        List.mem_filter.mpr ⟨hn, by simpa using hcon⟩
      simp [hnil] at hmem
    constructor
    · simp only [outImports, stub_wasi_imports, if_pos he]
      rw [List.all_eq_true]
      intro n hn
      simp [hnone n hn]
    · intro n hn hw
      exact absurd (hnone n hn) (by simp [hw])
  · constructor
    · simp only [outImports, stub_wasi_imports, if_neg he]
      rw [List.all_eq_true]
      intro n hn
      simpa using (List.mem_filter.mp hn).2
    · intro n hn hw
      simp only [trapsIn, stub_wasi_imports, if_neg he, makeStubWorld]
      have hmem : n ∈ wasiImports c := List.mem_filter.mpr ⟨hn, by simp [hw]⟩
      simpa using hmem

end CQjs